import Mathlib

/-!
Verification of the svg-fixer repository (src/index.js) against its
natural-language specification.

The program rewrites an SVG document so that class-based CSS rules in a
defs/style block become inline style attributes, optionally renames SVG
tags to their capitalized React-Native form, and falls back to a purely
textual rewrite whenever the structured (DOM-based) pipeline raises.

Modelling conventions, fixed throughout this file:
* Strings are modelled as `List Char`; `String` appears only at the outer
  API (`convertSvgStylesToInline`) mirroring the JS function boundary.
* JavaScript regular-expression scans (`regex.exec` loops, global
  `String.replace`) are modelled as left-to-right character scanners.
  Scanners that skip a variable number of characters after a match take a
  fuel argument (`length + 1` at the entry point) so that every
  definition is structurally recursive and kernel-evaluable.
* The DOM tree built by JSDOM is modelled by the mutual inductive
  `Node`/`NodeList` below.  External-dependency behaviour (JSDOM parsing,
  CSSOM style serialization, XML serialization) is modelled by small
  faithful functions; where the dependency's exact output format is not
  part of this repository, the format pinned by the specification's own
  worked examples is used (inline style text `p:v;` with a trailing
  semicolon, attributes serialized in insertion order, childless elements
  self-closed).
-/

set_option maxRecDepth 100000

/-- Whitespace test used throughout; JS regex `\s` on the inputs considered. -/
def isWsChar (c : Char) : Bool := c.isWhitespace

/-- Word character for the JS regex `\b` boundary: `[A-Za-z0-9_]`. -/
def isWordChar (c : Char) : Bool := c.isAlphanum || c = '_'

/-- Test whether `lit` is a prefix of `cs` (plain Boolean scan). -/
def startsWithL : List Char → List Char → Bool
  | [], _ => true
  | _ :: _, [] => false
  | l :: ls, c :: cs => l = c && startsWithL ls cs

/-- Drop leading whitespace (the left half of `String.prototype.trim`). -/
def trimLeftL (cs : List Char) : List Char := cs.dropWhile isWsChar

/-- JS `String.prototype.trim`: drop leading and trailing whitespace. -/
def trimL (cs : List Char) : List Char :=
  ((cs.dropWhile isWsChar).reverse.dropWhile isWsChar).reverse

/-- Prepend a character to the first fragment of a fragment list. -/
def consHead (c : Char) : List (List Char) → List (List Char)
  | [] => [[c]]
  | t :: ts => (c :: t) :: ts

/-- JS `String.prototype.split` with a single-character separator: the
separator is consumed and empty fragments are kept. -/
def splitOnCharL (sep : Char) : List Char → List (List Char)
  | [] => [[]]
  | c :: cs =>
    if c = sep then [] :: splitOnCharL sep cs
    else consHead c (splitOnCharL sep cs)

/-- Association-list lookup (first binding wins), keys being strings. -/
def lookupA {α : Type} : List (List Char × α) → List Char → Option α
  | [], _ => none
  | (k, v) :: rest, c => if k = c then some v else lookupA rest c

/-- Update-in-place-or-append write, the shared shape of three pieces of
the source: `classStyles[className] = styleDeclaration` (JS object write,
src/index.js:53), the CSSOM write `element.style[name] = value`
(src/index.js:71), and `setAttribute`. -/
def setAssoc {α : Type} : List (List Char × α) → List Char → α → List (List Char × α)
  | [], k, v => [(k, v)]
  | (k0, v0) :: rest, k, v =>
    if k0 = k then (k0, v) :: rest else (k0, v0) :: setAssoc rest k v

/-- Remove every binding of a key (DOM `removeAttribute`; attribute names
are unique in a parsed document, so removing all occurrences agrees with
removing the one occurrence). -/
def removeAssoc {α : Type} (m : List (List Char × α)) (k : List Char) :
    List (List Char × α) :=
  m.filter (fun e => e.1 ≠ k)

/-- One attempted match of the rule pattern `\.([^{]+){([^}]+)}` at a
position just after a literal dot (src/index.js:47): the selector is the
nonempty greedy run of non-brace characters before `{`, the body the
nonempty run of non-`}` characters before `}`; both are trimmed. -/
def tryRuleL (cs : List Char) : Option ((List Char × List Char) × List Char) :=
  match cs.takeWhile (fun c => c ≠ '{'), cs.dropWhile (fun c => c ≠ '{') with
  | [], _ => none
  | _, [] => none
  | sel, _ :: rest2 =>
    match rest2.takeWhile (fun c => c ≠ '}'), rest2.dropWhile (fun c => c ≠ '}') with
    | [], _ => none
    | _, [] => none
    | body, _ :: rest4 => some ((trimL sel, trimL body), rest4)

/-- The `while ((match = styleRegex.exec(styleText)) !== null)` loop of
src/index.js:50: scan left to right; at each literal dot try the rule
pattern, on success resume after the closing brace, on failure resume one
character later, exactly as `RegExp.exec` advances. -/
def scanRulesGo : Nat → List Char → List (List Char × List Char)
  | 0, _ => []
  | _ + 1, [] => []
  | fuel + 1, c :: cs =>
    if c = '.' then
      match tryRuleL cs with
      | some (rule, rest) => rule :: scanRulesGo fuel rest
      | none => scanRulesGo fuel cs
    else scanRulesGo fuel cs

/-- All `(className, declarationText)` rules of a style text, in scan order. -/
def scanRulesL (cs : List Char) : List (List Char × List Char) :=
  scanRulesGo (cs.length + 1) cs

/-- The per-fragment split of src/index.js:70 and :138:
`prop.split(":").map(part => part.trim())` destructured to its first two
components.  The value is the second `:`-separated part only (`none` when
the fragment has no colon at all). -/
def splitPropL (frag : List Char) : List Char × Option (List Char) :=
  let parts := (splitOnCharL ':' frag).map trimL
  (parts.headD [], parts.get? 1)

/-- The declaration-body parser of the structured path
(src/index.js:63-72): split on `;`, trim, discard empty fragments, then
split each fragment as `splitPropL`. -/
def parseStylePropsL (d : List Char) : List (List Char × Option (List Char)) :=
  ((((splitOnCharL ';' d).map trimL).filter (fun p => p ≠ []))).map splitPropL

/-- The `classStyles` object of src/index.js:44-54: later rules for the
same class name overwrite the stored declaration wholesale, keeping the
first-insertion position (plain JS object property write). -/
def buildClassStylesL (rules : List (List Char × List Char)) :
    List (List Char × List Char) :=
  rules.foldl (fun m r => setAssoc m r.1 r.2) []

/-- Modelled from the spec (section 3, Style Rule): the declaration the
specification says should win for a class name, namely the one from the
last rule for that class in a left-to-right scan.  Used to compare the
code's duplicate-rule behaviour against the spec's. -/
def lastDeclL (rules : List (List Char × List Char)) (c : List Char) :
    Option (List Char) :=
  rules.foldl (fun acc r => if r.1 = c then some r.2 else acc) none

theorem scanRules_smoke :
    scanRulesL ((".a\x7bfill:red;\x7d.b\x7bstroke:blue\x7d").data) =
      [(("a").data, ("fill:red;").data),
       (("b").data, ("stroke:blue").data)] := by
  decide

theorem splitOnChar_ne_nil (sep : Char) : ∀ cs : List Char, splitOnCharL sep cs ≠ []
  | [] => by simp [splitOnCharL]
  | c :: cs => by
    simp only [splitOnCharL]
    split
    · simp
    · rcases h : splitOnCharL sep cs with _ | ⟨t, ts⟩ <;> simp [consHead]

theorem splitOnChar_append (sep : Char) (xs rest : List Char) (h : sep ∉ xs) :
    splitOnCharL sep (xs ++ sep :: rest) = xs :: splitOnCharL sep rest := by
  induction xs with
  | nil => simp [splitOnCharL]
  | cons c cs ih =>
    have hc : ¬ c = sep := by
      intro hcs
      exact h (by simp [hcs])
    have hs : sep ∉ cs := fun hm => h (List.mem_cons_of_mem _ hm)
    have ih2 : splitOnCharL sep (cs.append (sep :: rest)) = cs :: splitOnCharL sep rest :=
      ih hs
    simp only [List.cons_append, splitOnCharL, if_neg hc, ih2, consHead]

theorem splitOnChar_of_not_mem (sep : Char) (xs : List Char) (h : sep ∉ xs) :
    splitOnCharL sep xs = [xs] := by
  induction xs with
  | nil => simp [splitOnCharL]
  | cons c cs ih =>
    have hc : ¬ c = sep := by
      intro hcs
      exact h (by simp [hcs])
    have hs : sep ∉ cs := fun hm => h (List.mem_cons_of_mem _ hm)
    simp only [splitOnCharL, if_neg hc, ih hs, consHead]

theorem not_mem_of_mem_splitOnChar (sep : Char) :
    ∀ (cs : List Char), ∀ p ∈ splitOnCharL sep cs, sep ∉ p := by
  intro cs
  induction cs with
  | nil =>
    intro p hp
    simp only [splitOnCharL, List.mem_singleton] at hp
    simp [hp]
  | cons c cs ih =>
    intro p hp
    simp only [splitOnCharL] at hp
    by_cases hc : c = sep
    · rw [if_pos hc] at hp
      rcases List.mem_cons.1 hp with h1 | h1
      · simp [h1]
      · exact ih p h1
    · rw [if_neg hc] at hp
      rcases hS : splitOnCharL sep cs with _ | ⟨t, ts⟩
      · exact absurd hS (splitOnChar_ne_nil sep cs)
      · rw [hS] at hp
        simp only [consHead] at hp
        rcases List.mem_cons.1 hp with h1 | h1
        · subst h1
          intro hmem
          rcases List.mem_cons.1 hmem with h2 | h2
          · exact hc h2.symm
          · exact ih t (by rw [hS]; exact List.mem_cons_self t ts) h2
        · exact ih p (by rw [hS]; exact List.mem_cons_of_mem t h1)

theorem lookupA_setAssoc {α : Type} (m : List (List Char × α)) (k c : List Char) (v : α) :
    lookupA (setAssoc m k v) c = if k = c then some v else lookupA m c := by
  induction m with
  | nil => by_cases h : k = c <;> simp [setAssoc, lookupA, h]
  | cons e rest ih =>
    rcases e with ⟨k0, v0⟩
    simp only [setAssoc]
    by_cases h0 : k0 = k
    · subst h0
      by_cases hc : k0 = c <;> simp [lookupA, hc]
    · simp only [if_neg h0, lookupA]
      by_cases hc : k0 = c
      · have : ¬ k = c := fun hk => h0 (hk ▸ hc)
        simp [hc, this]
      · simp [hc, ih]

theorem buildClassStyles_foldAux (rules : List (List Char × List Char)) :
    ∀ (m : List (List Char × List Char)) (c : List Char),
      lookupA (rules.foldl (fun m r => setAssoc m r.1 r.2) m) c =
        rules.foldl (fun acc r => if r.1 = c then some r.2 else acc) (lookupA m c) := by
  induction rules with
  | nil => intro m c; simp
  | cons r rs ih =>
    intro m c
    simp only [List.foldl_cons]
    rw [ih, lookupA_setAssoc]

/-- Claim C2, corrected.  The later of two rules for the same class name
replaces the earlier one wholesale in the parsed class-style map: the map
binds each class name to the declaration text of its last rule in scan
order, and a duplicate-keyed rule list builds the same map as the list
with only the later rule.  A property appearing only in the earlier
declaration is therefore never applied (rule-level replacement, not the
property-level layering the claim describes). -/
theorem C2_amended (rules : List (List Char × List Char)) (c d1 d2 : List Char) :
    lookupA (buildClassStylesL rules) c = lastDeclL rules c ∧
    buildClassStylesL [(c, d1), (c, d2)] = buildClassStylesL [(c, d2)] := by
  constructor
  · have h := buildClassStyles_foldAux rules [] c
    simpa [buildClassStylesL, lastDeclL, lookupA] using h
  · simp [buildClassStylesL, setAssoc]

/-- Claim C5, corrected.  A fragment is split on every colon and only the
first two parts are kept: the value is the trimmed text strictly between
the first and the second colon (or to the end of the fragment when there
is no second colon).  Text after a second colon is silently discarded,
not preserved as the claim states. -/
theorem C5_amended (pre mid post : List Char)
    (hpre : ':' ∉ pre) (hmid : ':' ∉ mid) :
    splitPropL (pre ++ ':' :: mid ++ ':' :: post) = (trimL pre, some (trimL mid)) ∧
    splitPropL (pre ++ ':' :: mid) = (trimL pre, some (trimL mid)) := by
  have h1 := splitOnChar_append ':' pre (mid ++ ':' :: post) hpre
  have h2 := splitOnChar_append ':' mid post hmid
  have h3 := splitOnChar_of_not_mem ':' mid hmid
  constructor
  · simp [splitPropL, h1, h2]
  · have h4 := splitOnChar_append ':' pre mid hpre
    simp [splitPropL, h4, h3]

theorem C5_witness :
    (':' ∉ ("fill").data ∧ ':' ∉ (" url(a").data) ∧
    splitPropL (("fill").data ++ ':' :: (" url(a").data ++ ':' :: ("b)").data) =
      (trimL (("fill").data), some (trimL ((" url(a").data))) :=
  ⟨by decide, (C5_amended (("fill").data) ((" url(a").data) (("b)").data)
      (by decide) (by decide)).1⟩

/-- Claim C5 counterexample: on the single-fragment body
fill:url(a:b) the parser yields the value url(a, truncating at the
second colon, and the pair the claim predicts, with the full remainder
url(a:b) as value, is not produced. -/
theorem C5_counterexample :
    parseStylePropsL (("fill:url(a:b)").data) =
      [((("fill").data), some (("url(a").data))] ∧
    ¬ ((("fill").data, some (("url(a:b)").data)) ∈
        parseStylePropsL (("fill:url(a:b)").data)) := by
  decide

/-- A string with no leading and no trailing whitespace (the shape of
every `trim` output). -/
def noEdgeWs (s : List Char) : Prop :=
  (∀ c ∈ s.head?, isWsChar c = false) ∧ (∀ c ∈ s.getLast?, isWsChar c = false)

theorem dropWhile_eq_self_of_head {p : Char → Bool} {l : List Char}
    (h : ∀ c ∈ l.head?, p c = false) : l.dropWhile p = l := by
  cases l with
  | nil => rfl
  | cons a l =>
    have ha : p a = false := h a (by simp)
    simp [List.dropWhile_cons, ha]

theorem trimL_eq_self {s : List Char} (h : noEdgeWs s) : trimL s = s := by
  unfold trimL
  rw [dropWhile_eq_self_of_head h.1]
  rw [dropWhile_eq_self_of_head (by simpa using h.2)]
  exact s.reverse_reverse

theorem getLast?_dropWhile_of_ne_nil {p : Char → Bool} :
    ∀ (l : List Char), l.dropWhile p ≠ [] → (l.dropWhile p).getLast? = l.getLast? := by
  intro l
  induction l with
  | nil => intro h; simp at h
  | cons a l ih =>
    intro h
    by_cases ha : p a
    · rw [List.dropWhile_cons_of_pos ha] at h ⊢
      have hl : l ≠ [] := by
        intro hnil
        rw [hnil] at h
        simp at h
      rcases l with _ | ⟨b, l2⟩
      · exact absurd rfl hl
      · rw [ih h, List.getLast?_cons_cons]
    · rw [List.dropWhile_cons_of_neg ha]

theorem noEdgeWs_trimL (s : List Char) : noEdgeWs (trimL s) := by
  unfold trimL noEdgeWs
  set A := s.dropWhile isWsChar with hA
  set B := A.reverse.dropWhile isWsChar with hB
  by_cases hBnil : B = []
  · rw [hBnil]
    simp
  · constructor
    · intro c hc
      rw [List.head?_reverse] at hc
      rw [getLast?_dropWhile_of_ne_nil A.reverse hBnil] at hc
      rw [List.getLast?_reverse] at hc
      have := List.head?_dropWhile_not isWsChar s
      rw [← hA] at this
      rcases hA2 : A.head? with _ | c2
      · rw [hA2] at hc; simp at hc
      · rw [hA2] at hc this
        simp at hc this
        rw [← hc]
        simpa using this
    · intro c hc
      rw [List.getLast?_reverse] at hc
      have := List.head?_dropWhile_not isWsChar A.reverse
      rw [← hB] at this
      rcases hB2 : B.head? with _ | c2
      · rw [hB2] at hc; simp at hc
      · rw [hB2] at hc this
        simp at hc this
        rw [← hc]
        simpa using this

theorem mem_of_mem_trimL {c : Char} {s : List Char} (h : c ∈ trimL s) : c ∈ s := by
  unfold trimL at h
  rw [List.mem_reverse] at h
  have h1 := (List.dropWhile_sublist isWsChar).subset h
  rw [List.mem_reverse] at h1
  exact (List.dropWhile_sublist isWsChar).subset h1

theorem not_mem_trimL {c : Char} {s : List Char} (h : c ∉ s) : c ∉ trimL s :=
  fun hc => h (mem_of_mem_trimL hc)

/-- Join fragments with a separator character, inverse of `splitOnCharL`. -/
def joinSepL (sep : Char) : List (List Char) → List Char
  | [] => []
  | [t] => t
  | t :: ts => t ++ sep :: joinSepL sep ts

theorem joinSepL_splitOnCharL (sep : Char) :
    ∀ cs : List Char, joinSepL sep (splitOnCharL sep cs) = cs := by
  intro cs
  induction cs with
  | nil => rfl
  | cons c cs ih =>
    simp only [splitOnCharL]
    by_cases hc : c = sep
    · rw [if_pos hc]
      rcases hS : splitOnCharL sep cs with _ | ⟨t, ts⟩
      · exact absurd hS (splitOnChar_ne_nil sep cs)
      · rw [hS] at ih
        simp only [joinSepL, hc]
        rw [ih]
        rfl
    · rw [if_neg hc]
      rcases hS : splitOnCharL sep cs with _ | ⟨t, ts⟩
      · exact absurd hS (splitOnChar_ne_nil sep cs)
      · rw [hS] at ih
        rcases ts with _ | ⟨t2, ts2⟩
        · simp only [consHead, joinSepL]
          simp only [joinSepL] at ih
          rw [ih]
        · simp only [consHead, joinSepL] at ih ⊢
          rw [List.cons_append, ih]

theorem mem_joinSepL {sep : Char} {c : Char} :
    ∀ {ts : List (List Char)}, c ∈ joinSepL sep ts → c = sep ∨ ∃ t ∈ ts, c ∈ t := by
  intro ts
  induction ts with
  | nil => intro h; simp [joinSepL] at h
  | cons t ts ih =>
    intro h
    rcases ts with _ | ⟨t2, ts2⟩
    · simp only [joinSepL] at h
      right
      exact ⟨t, by simp, h⟩
    · simp only [joinSepL, List.mem_append, List.mem_cons] at h
      rcases h with h | h | h
      · right; exact ⟨t, by simp, h⟩
      · left; exact h
      · rcases ih h with h2 | ⟨u, hu, hcu⟩
        · left; exact h2
        · right
          exact ⟨u, List.mem_cons_of_mem t hu, hcu⟩

theorem mem_of_mem_splitOnChar {sep c : Char} :
    ∀ {cs : List Char} {p : List Char}, p ∈ splitOnCharL sep cs → c ∈ p → c ∈ cs := by
  intro cs
  induction cs with
  | nil =>
    intro p hp hc
    simp only [splitOnCharL, List.mem_singleton] at hp
    rw [hp] at hc
    simp at hc
  | cons a cs ih =>
    intro p hp hc
    simp only [splitOnCharL] at hp
    by_cases ha : a = sep
    · rw [if_pos ha] at hp
      rcases List.mem_cons.1 hp with h1 | h1
      · rw [h1] at hc; simp at hc
      · exact List.mem_cons_of_mem a (ih h1 hc)
    · rw [if_neg ha] at hp
      rcases hS : splitOnCharL sep cs with _ | ⟨t, ts⟩
      · exact absurd hS (splitOnChar_ne_nil sep cs)
      · rw [hS] at hp
        simp only [consHead] at hp
        rcases List.mem_cons.1 hp with h1 | h1
        · rw [h1] at hc
          rcases List.mem_cons.1 hc with h2 | h2
          · rw [h2]; exact List.mem_cons_self a cs
          · exact List.mem_cons_of_mem a (ih (by rw [hS]; exact List.mem_cons_self t ts) h2)
        · exact List.mem_cons_of_mem a (ih (by rw [hS]; exact List.mem_cons_of_mem t h1) hc)

/-- DOMTokenList tokenizer core: split on whitespace runs dropping empty
tokens, accumulating the current token reversed. -/
def domTokGo (cur : List Char) : List Char → List (List Char)
  | [] => if cur = [] then [] else [cur.reverse]
  | c :: cs =>
    if isWsChar c then
      if cur = [] then domTokGo [] cs else cur.reverse :: domTokGo [] cs
    else domTokGo (c :: cur) cs

/-- DOMTokenList parse step one: the ordered token list of a class
attribute value (whitespace-separated, empties dropped). -/
def splitDomTokensL (v : List Char) : List (List Char) := domTokGo [] v

/-- Keep-first deduplication, DOMTokenList ordered-set semantics. -/
def dedupL : List (List Char) → List (List Char)
  | [] => []
  | t :: ts => t :: (dedupL ts).filter (fun u => u ≠ t)

/-- The class token set of a class attribute value, as `element.classList`
exposes it: whitespace-split, duplicates dropped keeping the first. -/
def classTokensOf (v : List Char) : List (List Char) := dedupL (splitDomTokensL v)

theorem domTokGo_token (t : List Char) (ht : ∀ c ∈ t, isWsChar c = false) :
    ∀ (cur cs : List Char), domTokGo cur (t ++ cs) = domTokGo (t.reverse ++ cur) cs := by
  induction t with
  | nil => intro cur cs; simp
  | cons c t ih =>
    intro cur cs
    have hc : isWsChar c = false := ht c (by simp)
    have ht2 : ∀ c2 ∈ t, isWsChar c2 = false := fun c2 h2 => ht c2 (List.mem_cons_of_mem c h2)
    simp only [List.cons_append, domTokGo, hc]
    rw [if_neg (by simp)]
    have ih2 : domTokGo (c :: cur) (t.append cs) = domTokGo (t.reverse ++ (c :: cur)) cs :=
      ih ht2 (c :: cur) cs
    rw [ih2]
    simp

theorem splitDomTokens_joinSep :
    ∀ (ts : List (List Char)),
      (∀ t ∈ ts, t ≠ [] ∧ ∀ c ∈ t, isWsChar c = false) →
      splitDomTokensL (joinSepL ' ' ts) = ts := by
  intro ts
  induction ts with
  | nil => intro _; rfl
  | cons t ts ih =>
    intro h
    have ht := h t (by simp)
    rcases ts with _ | ⟨t2, ts2⟩
    · show domTokGo [] (joinSepL ' ' [t]) = [t]
      simp only [joinSepL]
      rw [show (t : List Char) = t ++ [] from (List.append_nil t).symm]
      rw [domTokGo_token t ht.2 [] []]
      simp only [domTokGo, List.append_nil]
      rw [if_neg (by simpa using ht.1)]
      simp
    · show domTokGo [] (joinSepL ' ' (t :: t2 :: ts2)) = t :: t2 :: ts2
      simp only [joinSepL]
      rw [domTokGo_token t ht.2 [] (' ' :: joinSepL ' ' (t2 :: ts2))]
      simp only [domTokGo, List.append_nil]
      rw [if_pos (by decide)]
      rw [if_neg (by simpa using ht.1)]
      rw [List.reverse_reverse]
      have ih2 := ih (fun u hu => h u (List.mem_cons_of_mem t hu))
      show t :: splitDomTokensL (joinSepL ' ' (t2 :: ts2)) = t :: t2 :: ts2
      rw [ih2]

theorem domTokGo_mem :
    ∀ (cs cur : List Char), (∀ c ∈ cur, isWsChar c = false) →
      ∀ t ∈ domTokGo cur cs, t ≠ [] ∧ ∀ c ∈ t, isWsChar c = false := by
  intro cs
  induction cs with
  | nil =>
    intro cur hcur t ht
    simp only [domTokGo] at ht
    by_cases hc : cur = []
    · rw [if_pos hc] at ht; simp at ht
    · rw [if_neg hc] at ht
      simp only [List.mem_singleton] at ht
      subst ht
      constructor
      · simpa using hc
      · intro c hcm
        exact hcur c (by simpa using hcm)
  | cons a cs ih =>
    intro cur hcur t ht
    simp only [domTokGo] at ht
    by_cases ha : isWsChar a
    · rw [if_pos ha] at ht
      by_cases hc : cur = []
      · rw [if_pos hc] at ht
        exact ih [] (by simp) t ht
      · rw [if_neg hc] at ht
        rcases List.mem_cons.1 ht with h1 | h1
        · subst h1
          constructor
          · simpa using hc
          · intro c hcm
            exact hcur c (by simpa using hcm)
        · exact ih [] (by simp) t h1
    · rw [if_neg ha] at ht
      refine ih (a :: cur) ?_ t ht
      intro c hcm
      rcases List.mem_cons.1 hcm with h1 | h1
      · rw [h1]; simpa using ha
      · exact hcur c h1

theorem mem_dedupL {u : List Char} : ∀ {ts : List (List Char)}, u ∈ dedupL ts ↔ u ∈ ts := by
  intro ts
  induction ts with
  | nil => simp [dedupL]
  | cons t ts ih =>
    simp only [dedupL, List.mem_cons]
    constructor
    · intro h
      rcases h with h | h
      · exact Or.inl h
      · exact Or.inr (ih.1 (List.mem_of_mem_filter h))
    · intro h
      rcases h with h | h
      · exact Or.inl h
      · by_cases hu : u = t
        · exact Or.inl hu
        · refine Or.inr (List.mem_filter.2 ⟨ih.2 h, ?_⟩)
          simpa using hu

theorem nodup_dedupL : ∀ (ts : List (List Char)), (dedupL ts).Nodup := by
  intro ts
  induction ts with
  | nil => simp [dedupL]
  | cons t ts ih =>
    simp only [dedupL]
    refine List.Nodup.cons ?_ (List.Nodup.filter _ ih)
    intro hmem
    have := (List.mem_filter.1 hmem).2
    simp at this

theorem dedupL_eq_self : ∀ {ts : List (List Char)}, ts.Nodup → dedupL ts = ts := by
  intro ts
  induction ts with
  | nil => intro _; rfl
  | cons t ts ih =>
    intro h
    have hne := (List.nodup_cons.1 h).1
    have htail := (List.nodup_cons.1 h).2
    simp only [dedupL, ih htail]
    rw [List.filter_eq_self.2]
    intro u hu
    simp only [decide_eq_true_eq]
    intro hut
    exact hne (hut ▸ hu)

/-- CSSOM-style parse of one declaration fragment of a style attribute:
name before the first colon, value everything after it, both trimmed;
fragments without a colon are invalid declarations and are dropped. -/
def cssomSplitDecl (frag : List Char) : Option (List Char × List Char) :=
  match splitOnCharL ':' frag with
  | [] => none
  | [_] => none
  | n :: rest => some (trimL n, trimL (joinSepL ':' rest))

/-- CSSOM-style parse of a whole style attribute value into an ordered
property list.  Models the external `CSSStyleDeclaration` state that
`element.style[name] = value` (src/index.js:71) reads and updates. -/
def parseStyleAttrL (s : List Char) : List (List Char × List Char) :=
  (((splitOnCharL ';' s).map trimL).filter (fun p => p ≠ [])).filterMap cssomSplitDecl

/-- Serialization of the inline style mapping back into the style
attribute, in the `prop:value;` format the specification's worked
examples pin down. -/
def serializeStylePairsL : List (List Char × List Char) → List Char
  | [] => []
  | (n, v) :: ps => n ++ ':' :: v ++ ';' :: serializeStylePairsL ps

/-- Well-formedness of a stored property name: trimmed and free of the
two separator characters. -/
def wfStyleName (n : List Char) : Prop := noEdgeWs n ∧ ':' ∉ n ∧ ';' ∉ n

/-- Well-formedness of a stored property value: trimmed and free of the
declaration separator (colons may occur inside a value). -/
def wfStyleVal (v : List Char) : Prop := noEdgeWs v ∧ ';' ∉ v

/-- Every stored pair is well formed; invariant of the style model. -/
def wfStylePairs (ps : List (List Char × List Char)) : Prop :=
  ∀ p ∈ ps, wfStyleName p.1 ∧ wfStyleVal p.2

theorem noEdgeWs_name_colon_val {n v : List Char}
    (hn : noEdgeWs n) (hv : noEdgeWs v) : noEdgeWs (n ++ ':' :: v) := by
  constructor
  · intro c hc
    rcases n with _ | ⟨a, n2⟩
    · simp at hc
      rw [← hc]
      decide
    · simp at hc
      rw [← hc]
      exact hn.1 a (by simp)
  · intro c hc
    rw [List.getLast?_append] at hc
    rcases v with _ | ⟨b, v2⟩
    · simp at hc
      rw [← hc]
      decide
    · have hvne : (b :: v2).getLast? = some ((b :: v2).getLast (by simp)) := by
        simp [List.getLast?_eq_getLast]
      rw [show ((':' :: b :: v2).getLast? : Option Char) = (b :: v2).getLast? from by
          rw [List.getLast?_cons_cons]] at hc
      rw [hvne] at hc
      simp at hc
      rw [← hc]
      exact hv.2 _ (by rw [hvne]; rfl)

theorem parse_serialize_stylePairs :
    ∀ (ps : List (List Char × List Char)), wfStylePairs ps →
      parseStyleAttrL (serializeStylePairsL ps) = ps := by
  intro ps
  induction ps with
  | nil => intro _; rfl
  | cons p ps ih =>
    intro h
    rcases p with ⟨n, v⟩
    have hp := h (n, v) (by simp)
    have hn := hp.1
    have hv := hp.2
    have hsemi : ';' ∉ n ++ ':' :: v := by
      intro hmem
      rcases List.mem_append.1 hmem with h1 | h1
      · exact hn.2.2 h1
      · rcases List.mem_cons.1 h1 with h2 | h2
        · exact absurd h2 (by decide)
        · exact hv.2 h2
    have hsplit : splitOnCharL ';' (serializeStylePairsL ((n, v) :: ps)) =
        (n ++ ':' :: v) :: splitOnCharL ';' (serializeStylePairsL ps) := by
      show splitOnCharL ';' (n ++ ':' :: v ++ ';' :: serializeStylePairsL ps) =
        (n ++ ':' :: v) :: splitOnCharL ';' (serializeStylePairsL ps)
      have hassoc : n ++ ':' :: v ++ ';' :: serializeStylePairsL ps =
          (n ++ ':' :: v) ++ ';' :: serializeStylePairsL ps := by
        simp
      rw [hassoc, splitOnChar_append ';' (n ++ ':' :: v) _ hsemi]
    have htrim : trimL (n ++ ':' :: v) = n ++ ':' :: v :=
      trimL_eq_self (noEdgeWs_name_colon_val hn.1 hv.1)
    have hnonnil : (n ++ ':' :: v) ≠ [] := by simp
    have hdecl : cssomSplitDecl (n ++ ':' :: v) = some (n, v) := by
      unfold cssomSplitDecl
      rw [splitOnChar_append ':' n v hn.2.1]
      rcases hvs : splitOnCharL ':' v with _ | ⟨t, ts⟩
      · exact absurd hvs (splitOnChar_ne_nil ':' v)
      · have hjoin : joinSepL ':' (t :: ts) = v := by
          rw [← hvs]; exact joinSepL_splitOnCharL ':' v
        simp only [hjoin, trimL_eq_self hn.1, trimL_eq_self hv.1]
    unfold parseStyleAttrL
    rw [hsplit]
    simp only [List.map_cons, htrim, List.filter_cons]
    rw [if_pos (by simp)]
    simp only [List.filterMap_cons, hdecl]
    have ih2 := ih (fun q hq => h q (List.mem_cons_of_mem _ hq))
    unfold parseStyleAttrL at ih2
    rw [ih2]

/-- Attribute list of an element: ordered name/value pairs. -/
abbrev AttrsL := List (List Char × List Char)

/-- The literal attribute name class. -/
def classAttrName : List Char := ("class").data

/-- The literal attribute name style. -/
def styleAttrName : List Char := ("style").data

/-- Attribute read defaulting to the empty string (missing attribute and
empty attribute behave alike for token and style parsing). -/
def getAttrD (a : AttrsL) (k : List Char) : List Char := (lookupA a k).getD []

/-- The inline style mapping of an element, as the live
`CSSStyleDeclaration` view of its style attribute. -/
def stylePairsOfA (a : AttrsL) : List (List Char × List Char) :=
  parseStyleAttrL (getAttrD a styleAttrName)

/-- The class token set of an element, as `element.classList`. -/
def classTokensA (a : AttrsL) : List (List Char) :=
  classTokensOf (getAttrD a classAttrName)

/-- One CSSOM write `element.style[name] = value` (src/index.js:71): the
parsed style attribute is updated in place (existing property keeps its
position, new property appended) and immediately reflected back into the
attribute. -/
def setStyleProp (n v : List Char) (a : AttrsL) : AttrsL :=
  setAssoc a styleAttrName (serializeStylePairsL (setAssoc (stylePairsOfA a) n v))

/-- The `styleProps.forEach` loop of src/index.js:69-72 applied to one
element: every parsed `(name, value)` pair with a present value is
written through the CSSOM; a fragment with no colon yields an undefined
value and is modelled as a skipped write. -/
def applyDeclProps (d : List Char) (a : AttrsL) : AttrsL :=
  (parseStylePropsL d).foldl
    (fun acc q =>
      match q.2 with
      | some v => setStyleProp q.1 v acc
      | none => acc) a

/-- The per-element body of the `elements.forEach` loop of
src/index.js:61-79 for one class name: apply the declaration's properties
inline, then remove the class token, removing the class attribute
entirely when no token remains. -/
def localClass (C d : List Char) (a : AttrsL) : AttrsL :=
  if C ∈ classTokensA a then
    let a1 := applyDeclProps d a
    let toks := (classTokensA a1).filter (fun t => t ≠ C)
    if toks = [] then removeAssoc a1 classAttrName
    else setAssoc a1 classAttrName (joinSepL ' ' toks)
  else a

/-- The `Object.keys(classStyles).forEach` loop of src/index.js:57-80,
restricted to a single element's attribute list (each class pass touches
each element independently, so the whole-document loop is the per-element
composition lifted over the tree). -/
def applyAllRulesA (m : List (List Char × List Char)) (a : AttrsL) : AttrsL :=
  m.foldl (fun acc r => localClass r.1 r.2 acc) a

/-- The writes a single declaration text performs, in order. -/
def writesOfDecl (d : List Char) : List (List Char × List Char) :=
  (parseStylePropsL d).filterMap
    (fun q =>
      match q.2 with
      | some v => some (q.1, v)
      | none => none)

/-- The full ordered write sequence a class-style map performs on an
element whose class token set is `toks`. -/
def writesOfRules (m : List (List Char × List Char)) (toks : List (List Char)) :
    List (List Char × List Char) :=
  ((m.filter (fun r => decide (r.1 ∈ toks))).map (fun r => writesOfDecl r.2)).flatten

/-- Class attribute state after a pass has rewritten it: the attribute is
exactly the serialized current token set, absent when the set is empty. -/
def CanonClass (a : AttrsL) : Prop :=
  lookupA a classAttrName =
    if classTokensA a = [] then none else some (joinSepL ' ' (classTokensA a))

theorem class_ne_style : classAttrName ≠ styleAttrName := by decide

theorem lookupA_removeAssoc_self {α : Type} (m : List (List Char × α)) (k : List Char) :
    lookupA (removeAssoc m k) k = none := by
  induction m with
  | nil => rfl
  | cons e rest ih =>
    rcases e with ⟨k0, v0⟩
    simp only [removeAssoc, List.filter_cons]
    by_cases h0 : k0 = k
    · rw [if_neg (by simp [h0])]
      exact ih
    · rw [if_pos (by simpa using h0)]
      simp only [lookupA, if_neg h0]
      exact ih

theorem lookupA_removeAssoc_ne {α : Type} (m : List (List Char × α)) (k c : List Char)
    (h : k ≠ c) : lookupA (removeAssoc m k) c = lookupA m c := by
  induction m with
  | nil => rfl
  | cons e rest ih =>
    rcases e with ⟨k0, v0⟩
    simp only [removeAssoc, List.filter_cons]
    by_cases h0 : k0 = k
    · rw [if_neg (by simp [h0])]
      have : ¬ k0 = c := fun hc => h (h0 ▸ hc)
      simp only [lookupA, if_neg this]
      exact ih
    · rw [if_pos (by simpa using h0)]
      simp only [lookupA]
      by_cases hc : k0 = c
      · simp [hc]
      · simp only [if_neg hc]
        exact ih

theorem mem_setAssoc {α : Type} {m : List (List Char × α)} {k : List Char} {v : α} :
    ∀ p ∈ setAssoc m k v, p ∈ m ∨ p = (k, v) := by
  induction m with
  | nil =>
    intro p hp
    simp only [setAssoc, List.mem_singleton] at hp
    exact Or.inr hp
  | cons e rest ih =>
    intro p hp
    rcases e with ⟨k0, v0⟩
    simp only [setAssoc] at hp
    by_cases h0 : k0 = k
    · rw [if_pos h0] at hp
      rcases List.mem_cons.1 hp with h1 | h1
      · exact Or.inr (by rw [h1, h0])
      · exact Or.inl (List.mem_cons_of_mem _ h1)
    · rw [if_neg h0] at hp
      rcases List.mem_cons.1 hp with h1 | h1
      · exact Or.inl (by rw [h1]; exact List.mem_cons_self _ _)
      · rcases ih p h1 with h2 | h2
        · exact Or.inl (List.mem_cons_of_mem _ h2)
        · exact Or.inr h2

theorem wf_frag_of_mem {s frag : List Char}
    (hf : frag ∈ ((splitOnCharL ';' s).map trimL).filter (fun p => p ≠ [])) :
    ';' ∉ frag := by
  have h1 := List.mem_filter.1 hf
  rcases List.mem_map.1 h1.1 with ⟨part, hpart, hfrag⟩
  intro hmem
  rw [← hfrag] at hmem
  exact not_mem_of_mem_splitOnChar ';' s part hpart (mem_of_mem_trimL hmem)

theorem wf_parseStyleAttrL (s : List Char) : wfStylePairs (parseStyleAttrL s) := by
  intro p hp
  unfold parseStyleAttrL at hp
  rcases List.mem_filterMap.1 hp with ⟨frag, hfrag, hdecl⟩
  have hsemi : ';' ∉ frag := wf_frag_of_mem hfrag
  unfold cssomSplitDecl at hdecl
  rcases hsp : splitOnCharL ':' frag with _ | ⟨n, rest⟩
  · rw [hsp] at hdecl; simp at hdecl
  · rcases rest with _ | ⟨r, rest2⟩
    · rw [hsp] at hdecl; simp at hdecl
    · rw [hsp] at hdecl
      simp only [Option.some_inj] at hdecl
      have hn_mem : n ∈ splitOnCharL ':' frag := by rw [hsp]; exact List.mem_cons_self _ _
      have hcolon_n : ':' ∉ n := not_mem_of_mem_splitOnChar ':' frag n hn_mem
      have hmem_frag : ∀ c ∈ n, c ∈ frag := fun c hc => mem_of_mem_splitOnChar hn_mem hc
      rw [← hdecl]
      constructor
      · refine ⟨noEdgeWs_trimL n, not_mem_trimL hcolon_n, not_mem_trimL ?_⟩
        intro hmem
        exact hsemi (hmem_frag ';' hmem)
      · refine ⟨noEdgeWs_trimL _, not_mem_trimL ?_⟩
        intro hmem
        rcases mem_joinSepL hmem with h1 | ⟨t, ht, hct⟩
        · exact absurd h1 (by decide)
        · have ht2 : t ∈ splitOnCharL ':' frag := by
            rw [hsp]; exact List.mem_cons_of_mem n ht
          exact hsemi (mem_of_mem_splitOnChar ht2 hct)

theorem wf_parseStylePropsL (d : List Char) :
    ∀ q ∈ parseStylePropsL d,
      wfStyleName q.1 ∧ ∀ v, q.2 = some v → wfStyleVal v ∧ ':' ∉ v := by
  intro q hq
  unfold parseStylePropsL at hq
  rcases List.mem_map.1 hq with ⟨frag, hfrag, hsplit⟩
  have hsemi : ';' ∉ frag := wf_frag_of_mem hfrag
  unfold splitPropL at hsplit
  rcases hsp : splitOnCharL ':' frag with _ | ⟨t, ts⟩
  · exact absurd hsp (splitOnChar_ne_nil ':' frag)
  · rw [hsp] at hsplit
    simp only [List.map_cons] at hsplit
    have ht_mem : t ∈ splitOnCharL ':' frag := by rw [hsp]; exact List.mem_cons_self _ _
    constructor
    · rw [← hsplit]
      simp only [List.headD_cons]
      refine ⟨noEdgeWs_trimL t, not_mem_trimL (not_mem_of_mem_splitOnChar ':' frag t ht_mem), not_mem_trimL ?_⟩
      intro hmem
      exact hsemi (mem_of_mem_splitOnChar ht_mem hmem)
    · intro v hv
      rw [← hsplit] at hv
      simp only at hv
      have hv_mem : v ∈ (trimL t :: List.map trimL ts) := List.get?_mem hv
      rcases List.mem_cons.1 hv_mem with h1 | h1
      · have : (trimL t : List Char) ∈ List.map trimL (splitOnCharL ':' frag) := by
          rw [hsp]; simp
        rw [h1]
        refine ⟨⟨noEdgeWs_trimL t, not_mem_trimL ?_⟩, not_mem_trimL (not_mem_of_mem_splitOnChar ':' frag t ht_mem)⟩
        intro hmem
        exact hsemi (mem_of_mem_splitOnChar ht_mem hmem)
      · rcases List.mem_map.1 h1 with ⟨u, hu, hvu⟩
        have hu_mem : u ∈ splitOnCharL ':' frag := by
          rw [hsp]; exact List.mem_cons_of_mem t hu
        rw [← hvu]
        refine ⟨⟨noEdgeWs_trimL u, not_mem_trimL ?_⟩, not_mem_trimL (not_mem_of_mem_splitOnChar ':' frag u hu_mem)⟩
        intro hmem
        exact hsemi (mem_of_mem_splitOnChar hu_mem hmem)

theorem classTokens_setStyleProp (n v : List Char) (a : AttrsL) :
    classTokensA (setStyleProp n v a) = classTokensA a := by
  unfold classTokensA getAttrD setStyleProp
  rw [lookupA_setAssoc]
  rw [if_neg (by decide)]

theorem stylePairs_setAssoc_class (a : AttrsL) (x : List Char) :
    stylePairsOfA (setAssoc a classAttrName x) = stylePairsOfA a := by
  unfold stylePairsOfA getAttrD
  rw [lookupA_setAssoc]
  rw [if_neg (by decide)]

theorem stylePairs_removeAssoc_class (a : AttrsL) :
    stylePairsOfA (removeAssoc a classAttrName) = stylePairsOfA a := by
  unfold stylePairsOfA getAttrD
  rw [lookupA_removeAssoc_ne a classAttrName styleAttrName (by decide)]

theorem wf_stylePairsOfA (a : AttrsL) : wfStylePairs (stylePairsOfA a) :=
  wf_parseStyleAttrL _

theorem wf_setAssoc_pairs {ps : List (List Char × List Char)} {n v : List Char}
    (h : wfStylePairs ps) (hn : wfStyleName n) (hv : wfStyleVal v) :
    wfStylePairs (setAssoc ps n v) := by
  intro p hp
  rcases mem_setAssoc p hp with h1 | h1
  · exact h p h1
  · rw [h1]
    exact ⟨hn, hv⟩

theorem stylePairs_setStyleProp (n v : List Char) (a : AttrsL)
    (hn : wfStyleName n) (hv : wfStyleVal v) :
    stylePairsOfA (setStyleProp n v a) = setAssoc (stylePairsOfA a) n v := by
  have hwf : wfStylePairs (setAssoc (stylePairsOfA a) n v) :=
    wf_setAssoc_pairs (wf_stylePairsOfA a) hn hv
  show stylePairsOfA (setAssoc a styleAttrName
      (serializeStylePairsL (setAssoc (stylePairsOfA a) n v))) = _
  unfold stylePairsOfA getAttrD
  rw [lookupA_setAssoc]
  rw [if_pos rfl]
  exact parse_serialize_stylePairs _ hwf

theorem classTokens_applyProps_aux :
    ∀ (props : List (List Char × Option (List Char))) (a : AttrsL),
      classTokensA (props.foldl
        (fun acc q =>
          match q.2 with
          | some v => setStyleProp q.1 v acc
          | none => acc) a) = classTokensA a := by
  intro props
  induction props with
  | nil => intro a; rfl
  | cons q props ih =>
    intro a
    rcases hq : q.2 with _ | v
    · simp only [List.foldl_cons, hq]
      exact ih a
    · simp only [List.foldl_cons, hq]
      rw [ih (setStyleProp q.1 v a), classTokens_setStyleProp]

theorem classTokens_applyDeclProps (d : List Char) (a : AttrsL) :
    classTokensA (applyDeclProps d a) = classTokensA a :=
  classTokens_applyProps_aux (parseStylePropsL d) a

theorem stylePairs_applyProps_aux :
    ∀ (props : List (List Char × Option (List Char))),
      (∀ q ∈ props, wfStyleName q.1 ∧ ∀ v, q.2 = some v → wfStyleVal v ∧ ':' ∉ v) →
      ∀ (a : AttrsL),
      stylePairsOfA (props.foldl
        (fun acc q =>
          match q.2 with
          | some v => setStyleProp q.1 v acc
          | none => acc) a) =
        (props.filterMap
          (fun q =>
            match q.2 with
            | some v => some (q.1, v)
            | none => none)).foldl
          (fun s w => setAssoc s w.1 w.2) (stylePairsOfA a) := by
  intro props
  induction props with
  | nil => intro _ a; rfl
  | cons q props ih =>
    intro h a
    have hq := h q (by simp)
    have htail := fun r hr => h r (List.mem_cons_of_mem q hr)
    rcases hqv : q.2 with _ | v
    · simp only [List.foldl_cons, List.filterMap_cons, hqv]
      exact ih htail a
    · simp only [List.foldl_cons, List.filterMap_cons, hqv]
      rw [ih htail (setStyleProp q.1 v a)]
      rw [stylePairs_setStyleProp q.1 v a hq.1 ((hq.2 v hqv).1)]

theorem stylePairs_applyDeclProps (d : List Char) (a : AttrsL) :
    stylePairsOfA (applyDeclProps d a) =
      (writesOfDecl d).foldl (fun s w => setAssoc s w.1 w.2) (stylePairsOfA a) :=
  stylePairs_applyProps_aux (parseStylePropsL d) (wf_parseStylePropsL d) a

theorem classTokensA_members (a : AttrsL) :
    ∀ t ∈ classTokensA a, t ≠ [] ∧ ∀ c ∈ t, isWsChar c = false := by
  intro t ht
  unfold classTokensA classTokensOf at ht
  have h1 := mem_dedupL.1 ht
  exact domTokGo_mem _ [] (by simp) t h1

theorem nodup_classTokensA (a : AttrsL) : (classTokensA a).Nodup :=
  nodup_dedupL _

theorem classTokens_setAssoc_join (a : AttrsL) (toks : List (List Char))
    (h1 : ∀ t ∈ toks, t ≠ [] ∧ ∀ c ∈ t, isWsChar c = false)
    (h2 : toks.Nodup) :
    classTokensA (setAssoc a classAttrName (joinSepL ' ' toks)) = toks := by
  unfold classTokensA getAttrD
  rw [lookupA_setAssoc]
  rw [if_pos rfl]
  show classTokensOf (joinSepL ' ' toks) = toks
  unfold classTokensOf
  rw [splitDomTokens_joinSep toks h1]
  exact dedupL_eq_self h2

theorem classTokens_removeAssoc_class (a : AttrsL) :
    classTokensA (removeAssoc a classAttrName) = [] := by
  unfold classTokensA getAttrD
  rw [lookupA_removeAssoc_self]
  rfl

theorem localClass_skips {C d : List Char} {a : AttrsL} (hC : C ∉ classTokensA a) :
    localClass C d a = a := by
  unfold localClass
  rw [if_neg hC]

theorem localClass_fires (C d : List Char) (a : AttrsL) (hC : C ∈ classTokensA a) :
    stylePairsOfA (localClass C d a) =
      (writesOfDecl d).foldl (fun s w => setAssoc s w.1 w.2) (stylePairsOfA a) ∧
    classTokensA (localClass C d a) = (classTokensA a).filter (fun t => t ≠ C) ∧
    CanonClass (localClass C d a) := by
  unfold localClass
  rw [if_pos hC]
  have htoks1 : classTokensA (applyDeclProps d a) = classTokensA a :=
    classTokens_applyDeclProps d a
  set a1 := applyDeclProps d a with ha1
  by_cases h0 : (classTokensA a1).filter (fun t => t ≠ C) = []
  · rw [if_pos h0]
    refine ⟨?_, ?_, ?_⟩
    · rw [stylePairs_removeAssoc_class, ha1]
      exact stylePairs_applyDeclProps d a
    · rw [classTokens_removeAssoc_class, ← htoks1, h0]
    · unfold CanonClass
      rw [classTokens_removeAssoc_class]
      rw [if_pos rfl]
      exact lookupA_removeAssoc_self a1 classAttrName
  · rw [if_neg h0]
    have hmem : ∀ t ∈ (classTokensA a1).filter (fun t => t ≠ C),
        t ≠ [] ∧ ∀ c ∈ t, isWsChar c = false := by
      intro t ht
      exact classTokensA_members a1 t (List.mem_of_mem_filter ht)
    have hnd : ((classTokensA a1).filter (fun t => t ≠ C)).Nodup :=
      List.Nodup.filter _ (nodup_classTokensA a1)
    have hjoin := classTokens_setAssoc_join a1 _ hmem hnd
    refine ⟨?_, ?_, ?_⟩
    · rw [stylePairs_setAssoc_class, ha1]
      exact stylePairs_applyDeclProps d a
    · rw [hjoin, htoks1]
    · unfold CanonClass
      rw [hjoin]
      rw [if_neg h0]
      unfold classAttrName
      rw [lookupA_setAssoc]
      rw [if_pos rfl]

theorem canon_localClass (C d : List Char) (a : AttrsL) (h : CanonClass a) :
    CanonClass (localClass C d a) := by
  by_cases hC : C ∈ classTokensA a
  · exact (localClass_fires C d a hC).2.2
  · rw [localClass_skips hC]
    exact h

theorem canon_applyAllRulesA :
    ∀ (m : List (List Char × List Char)) (a : AttrsL),
      CanonClass a → CanonClass (applyAllRulesA m a) := by
  intro m
  induction m with
  | nil => intro a h; exact h
  | cons r m ih =>
    intro a h
    show CanonClass (applyAllRulesA m (localClass r.1 r.2 a))
    exact ih _ (canon_localClass r.1 r.2 a h)

theorem writesOfRules_cons_mem {C d : List Char} {toks : List (List Char)}
    (m : List (List Char × List Char)) (h : C ∈ toks) :
    writesOfRules ((C, d) :: m) toks = writesOfDecl d ++ writesOfRules m toks := by
  unfold writesOfRules
  rw [List.filter_cons, if_pos (by simpa using h)]
  simp

theorem writesOfRules_cons_not_mem {C d : List Char} {toks : List (List Char)}
    (m : List (List Char × List Char)) (h : C ∉ toks) :
    writesOfRules ((C, d) :: m) toks = writesOfRules m toks := by
  unfold writesOfRules
  rw [List.filter_cons, if_neg (by simpa using h)]

theorem writesOfRules_congr_toks (m : List (List Char × List Char))
    (toks1 toks2 : List (List Char))
    (h : ∀ r ∈ m, (r.1 ∈ toks1 ↔ r.1 ∈ toks2)) :
    writesOfRules m toks1 = writesOfRules m toks2 := by
  unfold writesOfRules
  have : m.filter (fun r => decide (r.1 ∈ toks1)) = m.filter (fun r => decide (r.1 ∈ toks2)) := by
    apply List.filter_congr
    intro r hr
    have := h r hr
    by_cases h1 : r.1 ∈ toks1
    · simp [h1, this.1 h1]
    · have h2 : r.1 ∉ toks2 := fun hm => h1 (this.2 hm)
      simp [h1, h2]
  rw [this]

theorem applyAllRulesA_spec :
    ∀ (m : List (List Char × List Char)) (a : AttrsL),
      (m.map Prod.fst).Nodup →
      stylePairsOfA (applyAllRulesA m a) =
        (writesOfRules m (classTokensA a)).foldl
          (fun s w => setAssoc s w.1 w.2) (stylePairsOfA a) ∧
      classTokensA (applyAllRulesA m a) =
        (classTokensA a).filter (fun t => decide (t ∉ m.map Prod.fst)) ∧
      ((∃ r ∈ m, r.1 ∈ classTokensA a) → CanonClass (applyAllRulesA m a)) := by
  intro m
  induction m with
  | nil =>
    intro a _
    refine ⟨rfl, ?_, ?_⟩
    · symm
      apply List.filter_eq_self.2
      intro t _
      simp
    · intro h
      rcases h with ⟨r, hr, _⟩
      simp at hr
  | cons r m ih =>
    intro a hnd
    rcases r with ⟨C, d⟩
    have hnd2 : (C :: m.map Prod.fst).Nodup := by simpa using hnd
    have hndK : C ∉ m.map Prod.fst := (List.nodup_cons.1 hnd2).1
    have hndT : (m.map Prod.fst).Nodup := (List.nodup_cons.1 hnd2).2
    have hfold : applyAllRulesA ((C, d) :: m) a = applyAllRulesA m (localClass C d a) := rfl
    by_cases hC : C ∈ classTokensA a
    · have hfi := localClass_fires C d a hC
      have ih2 := ih (localClass C d a) hndT
      have htoks : classTokensA (localClass C d a) =
          (classTokensA a).filter (fun t => t ≠ C) := hfi.2.1
      refine ⟨?_, ?_, ?_⟩
      · rw [hfold, ih2.1, htoks, hfi.1]
        rw [writesOfRules_congr_toks m _ (classTokensA a) ?_]
        · rw [← List.foldl_append]
          rw [← writesOfRules_cons_mem m hC]
        · intro r hr
          have hrC : r.1 ≠ C := fun h => hndK (h ▸ List.mem_map_of_mem Prod.fst hr)
          constructor
          · intro h
            exact List.mem_of_mem_filter h
          · intro h
            exact List.mem_filter.2 ⟨h, by simpa using hrC⟩
      · rw [hfold, ih2.2.1, htoks, List.filter_filter]
        apply List.filter_congr
        intro t _
        by_cases h1 : t = C <;> by_cases h2 : t ∈ m.map Prod.fst <;>
          simp [h1, h2]
      · intro _
        rw [hfold]
        exact canon_applyAllRulesA m _ hfi.2.2
    · have hsk : localClass C d a = a := localClass_skips hC
      have ih2 := ih a hndT
      refine ⟨?_, ?_, ?_⟩
      · rw [hfold, hsk, ih2.1, writesOfRules_cons_not_mem m hC]
      · rw [hfold, hsk, ih2.2.1]
        apply List.filter_congr
        intro t ht
        have htC : t ≠ C := fun h => hC (h ▸ ht)
        by_cases h2 : t ∈ m.map Prod.fst <;> simp [htC, h2]
      · intro hex
        rcases hex with ⟨r, hr, hrt⟩
        rcases List.mem_cons.1 hr with h1 | h1
        · rw [h1] at hrt
          exact absurd hrt hC
        · rw [hfold, hsk]
          exact ih2.2.2 ⟨r, h1, hrt⟩

theorem foldl_lastf_acc (p : List Char) :
    ∀ (ws : List (List Char × List Char)) (acc1 acc2 : Option (List Char)),
      p ∈ ws.map Prod.fst →
      ws.foldl (fun acc r => if r.1 = p then some r.2 else acc) acc1 =
        ws.foldl (fun acc r => if r.1 = p then some r.2 else acc) acc2 := by
  intro ws
  induction ws with
  | nil =>
    intro acc1 acc2 h
    simp at h
  | cons w ws ih =>
    intro acc1 acc2 h
    simp only [List.foldl_cons]
    by_cases hw : w.1 = p
    · rw [if_pos hw, if_pos hw]
    · rw [if_neg hw, if_neg hw]
      apply ih
      rw [List.map_cons] at h
      rcases List.mem_cons.1 h with h1 | h1
      · exact absurd h1.symm hw
      · exact h1

theorem lastDeclL_of_mem_aux (p : List Char) :
    ∀ (ws : List (List Char × List Char)) (acc : Option (List Char)),
      (p ∈ ws.map Prod.fst ∨ ∃ w, acc = some w) →
      ∃ w, ws.foldl (fun acc r => if r.1 = p then some r.2 else acc) acc = some w := by
  intro ws
  induction ws with
  | nil =>
    intro acc h
    rcases h with h | h
    · simp at h
    · exact h
  | cons r ws ih =>
    intro acc h
    simp only [List.foldl_cons]
    by_cases hr : r.1 = p
    · rw [if_pos hr]
      exact ih _ (Or.inr ⟨r.2, rfl⟩)
    · rw [if_neg hr]
      apply ih
      rcases h with h | h
      · rw [List.map_cons] at h
        rcases List.mem_cons.1 h with h1 | h1
        · exact absurd h1.symm hr
        · exact Or.inl h1
      · exact Or.inr h

theorem style_final_lookup (ws : List (List Char × List Char))
    (s : List (List Char × List Char)) (p : List Char)
    (h : p ∈ ws.map Prod.fst) :
    lookupA (ws.foldl (fun s w => setAssoc s w.1 w.2) s) p = lastDeclL ws p := by
  rw [buildClassStyles_foldAux ws s p]
  exact foldl_lastf_acc p ws (lookupA s p) none h

theorem mem_writesOfDecl {d p v : List Char}
    (hp : (p, some v) ∈ parseStylePropsL d) : (p, v) ∈ writesOfDecl d := by
  unfold writesOfDecl
  exact List.mem_filterMap.2 ⟨(p, some v), hp, rfl⟩

theorem mem_writesOfRules {m : List (List Char × List Char)}
    {toks : List (List Char)} {C d p v : List Char}
    (hm : (C, d) ∈ m) (hC : C ∈ toks) (hp : (p, some v) ∈ parseStylePropsL d) :
    p ∈ (writesOfRules m toks).map Prod.fst := by
  have h1 : (C, d) ∈ m.filter (fun r => decide (r.1 ∈ toks)) :=
    List.mem_filter.2 ⟨hm, by simpa using hC⟩
  have h2 : writesOfDecl d ∈ (m.filter (fun r => decide (r.1 ∈ toks))).map
      (fun r => writesOfDecl r.2) :=
    List.mem_map_of_mem (fun r => writesOfDecl r.2) h1
  have h3 : (p, v) ∈ writesOfRules m toks :=
    List.mem_flatten_of_mem h2 (mem_writesOfDecl hp)
  exact List.mem_map_of_mem Prod.fst h3

mutual
inductive NodeL where
  | text (s : List Char) : NodeL
  | elem (tag : List Char) (attrs : AttrsL) (children : NodeListL) : NodeL
inductive NodeListL where
  | nil : NodeListL
  | cons (head : NodeL) (tail : NodeListL) : NodeListL
end

/-- Convert a plain list of nodes into the child-sequence type. -/
def NodeListL.ofList : List NodeL → NodeListL
  | [] => .nil
  | n :: ns => .cons n (NodeListL.ofList ns)

mutual
/-- Apply a tag/attribute transformation to every element of the tree,
leaving text nodes and tree structure unchanged. -/
def mapElemsN (f : List Char → AttrsL → List Char × AttrsL) : NodeL → NodeL
  | .text s => .text s
  | .elem t a cs => .elem (f t a).1 (f t a).2 (mapElemsL f cs)
def mapElemsL (f : List Char → AttrsL → List Char × AttrsL) : NodeListL → NodeListL
  | .nil => .nil
  | .cons n ns => .cons (mapElemsN f n) (mapElemsL f ns)
end

/-- One pass of the `Object.keys(classStyles).forEach` loop
(src/index.js:57-80): `querySelectorAll` takes a static snapshot and each
matched element is updated locally, which is exactly an element-wise map
of `localClass` over the whole document. -/
def applyClassName (C d : List Char) (doc : NodeL) : NodeL :=
  mapElemsN (fun t a => (t, localClass C d a)) doc

/-- The whole class-application stage: one pass per class-style map entry,
in map insertion order. -/
def applyAllRules (m : List (List Char × List Char)) (doc : NodeL) : NodeL :=
  m.foldl (fun acc r => applyClassName r.1 r.2 acc) doc

/-- The SVG Element Vocabulary (src/index.js:282-307), in source order. -/
def svgElements : List String :=
  ["svg", "circle", "ellipse", "g", "text", "tspan", "line", "path",
   "polygon", "polyline", "rect", "use", "defs", "stop", "linearGradient",
   "radialGradient", "mask", "pattern", "clipPath", "filter",
   "feGaussianBlur", "feOffset", "feBlend", "feColorMatrix"]

/-- The vocabulary as character lists. -/
def svgElementsL : List (List Char) := svgElements.map String.data

/-- `el.charAt(0).toUpperCase() + el.slice(1)` (src/index.js:316). -/
def capitalizeL : List Char → List Char
  | [] => []
  | c :: cs => c.toUpper :: cs

/-- One pass of the tag renamer for a single vocabulary name
(src/index.js:310-332): every element whose tag equals the name is
replaced by an element with the capitalized tag, identical attributes (in
order) and the same child subtree. -/
def renameOneTag (n : List Char) (doc : NodeL) : NodeL :=
  mapElemsN (fun t a => (if t = n then capitalizeL n else t, a)) doc

/-- The tag renamer `convertToReactNativeSvg` (src/index.js:280-333): one
pass per vocabulary name, in vocabulary order. -/
def convertToReactNativeSvg (doc : NodeL) : NodeL :=
  svgElementsL.foldl (fun acc n => renameOneTag n acc) doc

mutual
def countElemsN : NodeL → Nat
  | .text _ => 0
  | .elem _ _ cs => 1 + countElemsLst cs
def countElemsLst : NodeListL → Nat
  | .nil => 0
  | .cons n ns => countElemsN n + countElemsLst ns
end

def lenNL : NodeListL → Nat
  | .nil => 0
  | .cons _ ns => 1 + lenNL ns

mutual
def tagsN : NodeL → List (List Char)
  | .text _ => []
  | .elem t _ cs => t :: tagsLst cs
def tagsLst : NodeListL → List (List Char)
  | .nil => []
  | .cons n ns => tagsN n ++ tagsLst ns
end

mutual
def attrsN : NodeL → List AttrsL
  | .text _ => []
  | .elem _ a cs => a :: attrsLst cs
def attrsLst : NodeListL → List AttrsL
  | .nil => []
  | .cons n ns => attrsN n ++ attrsLst ns
end

mutual
def childCountsN : NodeL → List Nat
  | .text _ => []
  | .elem _ _ cs => lenNL cs :: childCountsLst cs
def childCountsLst : NodeListL → List Nat
  | .nil => []
  | .cons n ns => childCountsN n ++ childCountsLst ns
end

mutual
def textsN : NodeL → List (List Char)
  | .text s => [s]
  | .elem _ _ cs => textsLst cs
def textsLst : NodeListL → List (List Char)
  | .nil => []
  | .cons n ns => textsN n ++ textsLst ns
end

/-- The tag name defs. -/
def defsTagName : List Char := ("defs").data

/-- The tag name style. -/
def styleTagName : List Char := ("style").data

mutual
def textContentN : NodeL → List Char
  | .text s => s
  | .elem _ _ cs => textContentLst cs
def textContentLst : NodeListL → List Char
  | .nil => []
  | .cons n ns => textContentN n ++ textContentLst ns
end

mutual
/-- `document.querySelector("defs style")` followed by reading its text
content (src/index.js:31,43): the first style element in document order
having a defs ancestor; returns its `textContent`. -/
def findDSN (inDefs : Bool) : NodeL → Option (List Char)
  | .text _ => none
  | .elem t _ cs =>
    if inDefs && t = styleTagName then some (textContentLst cs)
    else findDSL (inDefs || t = defsTagName) cs
def findDSL (inDefs : Bool) : NodeListL → Option (List Char)
  | .nil => none
  | .cons n ns =>
    match findDSN inDefs n with
    | some s => some s
    | none => findDSL inDefs ns
end

mutual
/-- `styleElement.remove()` (src/index.js:83): detach the first style
element (in document order) that has a defs ancestor. -/
def removeDSN (inDefs : Bool) : NodeL → Option NodeL × Bool
  | .text s => (some (.text s), false)
  | .elem t a cs =>
    if inDefs && t = styleTagName then (none, true)
    else
      ((some (.elem t a (removeDSL (inDefs || t = defsTagName) cs).1)),
        (removeDSL (inDefs || t = defsTagName) cs).2)
def removeDSL (inDefs : Bool) : NodeListL → NodeListL × Bool
  | .nil => (.nil, false)
  | .cons n ns =>
    match removeDSN inDefs n with
    | (none, _) => (ns, true)
    | (some n2, true) => (.cons n2 ns, true)
    | (some n2, false) => (.cons n2 (removeDSL inDefs ns).1, (removeDSL inDefs ns).2)
end

def removeFirstDefsStyle (doc : NodeL) : NodeL := ((removeDSN false doc).1).getD doc

/-- Count element children only (`defsElement.children.length`,
src/index.js:87; text nodes do not count). -/
def elemChildCount : NodeListL → Nat
  | .nil => 0
  | .cons (.text _) ns => elemChildCount ns
  | .cons (.elem _ _ _) ns => 1 + elemChildCount ns

mutual
/-- `document.querySelector("defs")` plus conditional removal
(src/index.js:86-89): the first defs element in document order is removed
when it has no element children; no other defs is considered. -/
def pruneN : NodeL → Option NodeL × Bool
  | .text s => (some (.text s), false)
  | .elem t a cs =>
    if t = defsTagName then
      if elemChildCount cs = 0 then (none, true) else (some (.elem t a cs), true)
    else
      (some (.elem t a (pruneL cs).1), (pruneL cs).2)
def pruneL : NodeListL → NodeListL × Bool
  | .nil => (.nil, false)
  | .cons n ns =>
    match pruneN n with
    | (none, _) => (ns, true)
    | (some n2, true) => (.cons n2 ns, true)
    | (some n2, false) => (.cons n2 (pruneL ns).1, (pruneL ns).2)
end

def pruneFirstDefs (doc : NodeL) : NodeL := ((pruneN doc).1).getD doc

/-- Serialize an attribute list in insertion order. -/
def serializeAttrs : AttrsL → List Char
  | [] => []
  | (n, v) :: rest => ' ' :: n ++ '=' :: '"' :: v ++ '"' :: serializeAttrs rest

mutual
/-- XML serialization (`dom.serialize()`, src/index.js:98, via the
external serializer): attributes in order, childless elements
self-closed, text emitted verbatim. -/
def serializeN : NodeL → List Char
  | .text s => s
  | .elem t a cs =>
    match cs with
    | .nil => '<' :: (t ++ serializeAttrs a ++ ('/' :: '>' :: []))
    | .cons _ _ =>
      '<' :: (t ++ serializeAttrs a ++ '>' :: (serializeL cs ++ '<' :: '/' :: (t ++ ['>'])))
def serializeL : NodeListL → List Char
  | .nil => []
  | .cons n ns => serializeN n ++ serializeL ns
end

/-- XML name characters accepted by the document parser model. -/
def isNameChar (c : Char) : Bool := c.isAlphanum || c = '-' || c = '_' || c = ':'

/-- Attribute-list parser of the document loader model: whitespace, then
either the end of the open tag or one name="value" pair. -/
def parseAttrsGo : Nat → List Char → Option (AttrsL × List Char)
  | 0, _ => none
  | fuel + 1, cs =>
    match trimLeftL cs with
    | [] => none
    | c :: rest =>
      if c = '/' || c = '>' then some ([], c :: rest)
      else
        match (c :: rest).takeWhile isNameChar, (c :: rest).dropWhile isNameChar with
        | [], _ => none
        | name, '=' :: '"' :: vrest =>
          match vrest.takeWhile (fun ch => ch ≠ '"'), vrest.dropWhile (fun ch => ch ≠ '"') with
          | v, '"' :: rest2 =>
            match parseAttrsGo fuel rest2 with
            | some (attrs, rest3) => some ((name, v) :: attrs, rest3)
            | none => none
          | _, _ => none
        | _, _ => none

/-- Node-sequence parser of the document loader model (JSDOM with
contentType image/svg+xml, src/index.js:27): returns the parsed siblings
and the unconsumed remainder, stopping at a closing tag; any
malformation yields none, modelling the XML parse error the structured
pipeline then raises. -/
def parseNodesGo : Nat → List Char → Option (List NodeL × List Char)
  | 0, _ => none
  | fuel + 1, cs =>
    match cs with
    | [] => some ([], [])
    | '<' :: '/' :: _ => some ([], cs)
    | '<' :: rest =>
      match rest.takeWhile isNameChar, rest.dropWhile isNameChar with
      | [], _ => none
      | tag, afterTag =>
        match parseAttrsGo fuel afterTag with
        | none => none
        | some (attrs, rest2) =>
          match rest2 with
          | '/' :: '>' :: rest3 =>
            match parseNodesGo fuel rest3 with
            | some (siblings, rest4) =>
              some (.elem tag attrs .nil :: siblings, rest4)
            | none => none
          | '>' :: rest3 =>
            match parseNodesGo fuel rest3 with
            | some (children, rest4) =>
              match rest4 with
              | '<' :: '/' :: rest5 =>
                match rest5.takeWhile isNameChar, rest5.dropWhile isNameChar with
                | ctag, '>' :: rest6 =>
                  if ctag = tag then
                    match parseNodesGo fuel rest6 with
                    | some (siblings, rest7) =>
                      some (.elem tag attrs (NodeListL.ofList children) :: siblings, rest7)
                    | none => none
                  else none
                | _, _ => none
              | _ => none
            | none => none
          | _ => none
    | _ =>
      match cs.takeWhile (fun ch => ch ≠ '<'), cs.dropWhile (fun ch => ch ≠ '<') with
      | txt, rest =>
        match parseNodesGo fuel rest with
        | some (siblings, rest2) => some (.text txt :: siblings, rest2)
        | none => none

/-- Whitespace-only text node test (tolerated around the document root). -/
def isWsOnlyText : NodeL → Bool
  | .text s => s.all isWsChar
  | .elem _ _ _ => false

/-- The document loader model: a whole input parses when the node
sequence consumes all input and consists of exactly one root element plus
possibly whitespace-only text around it. -/
def parseDocL (cs : List Char) : Option NodeL :=
  match parseNodesGo (cs.length + 1) cs with
  | none => none
  | some (nodes, rest) =>
    if rest = [] then
      match nodes.filter (fun n => !(isWsOnlyText n)) with
      | [NodeL.elem t a children] => some (.elem t a children)
      | _ => none
    else none

/-- The literal scanned for by the sanitizer regex of src/index.js:20. -/
def dataNameLit : List Char := ("data-name=\"").data

/-- `p1.replace(/\s+/g, "_")` (src/index.js:22): every maximal
whitespace run becomes a single underscore. -/
def squashGo : Bool → List Char → List Char
  | _, [] => []
  | inRun, c :: cs =>
    if isWsChar c then
      if inRun then squashGo true cs else '_' :: squashGo true cs
    else c :: squashGo false cs

def squashWs (v : List Char) : List Char := squashGo false v

/-- The sanitizer scan `svgContent.replace(/data-name="([^"]+)"/g, ...)`
(src/index.js:19-24): at each position where the literal data-name="
begins a match with a nonempty quote-free value and a closing quote, the
value's whitespace runs are replaced by underscores and the scan resumes
after the closing quote; otherwise the scan advances one character. -/
def sanitizeGo : Nat → List Char → List Char
  | 0, cs => cs
  | fuel + 1, cs =>
    if startsWithL dataNameLit cs then
      match (List.drop dataNameLit.length cs).takeWhile (fun ch => ch ≠ '"'),
            (List.drop dataNameLit.length cs).dropWhile (fun ch => ch ≠ '"') with
      | v0 :: vt, '"' :: rest => dataNameLit ++ (squashWs (v0 :: vt) ++ '"' :: sanitizeGo fuel rest)
      | _, _ =>
        match cs with
        | [] => []
        | c :: rest => c :: sanitizeGo fuel rest
    else
      match cs with
      | [] => []
      | c :: rest => c :: sanitizeGo fuel rest

/-- The sanitizer applied to a whole input. -/
def sanitizeL (cs : List Char) : List Char := sanitizeGo (cs.length + 1) cs

/-- A class name the model's selector engine supports: a plain CSS
identifier.  Parsed class names outside this set make the real
`querySelectorAll("." + className)` or `classList.remove` calls throw,
which the structured pipeline surfaces as a failure; the model reports
failure for them. -/
def simpleClassNameL : List Char → Bool
  | [] => false
  | h :: rest => (h.isAlpha || h = '_') && rest.all (fun ch => ch.isAlphanum || ch = '-' || ch = '_')

/-- The structured pipeline of `convertSvgStylesToInline`
(src/index.js:14-101) on an in-memory input: none models a raised error
(caught at src/index.js:108), some none the early return with no output
written (src/index.js:36-38), and some (some out) a serialized output.
Stages in source order: sanitize, parse, locate defs style, parse rules,
apply every class, remove the style element, prune the first empty defs,
optionally rename tags, serialize. -/
def convertStructuredL (input : List Char) (rn : Bool) : Option (Option (List Char)) :=
  match parseDocL (sanitizeL input) with
  | none => none
  | some doc =>
    match findDSN false doc with
    | none =>
      if rn then some (some (serializeN (convertToReactNativeSvg doc)))
      else some none
    | some styleText =>
      let rules := scanRulesL styleText
      if rules.all (fun r => simpleClassNameL r.1) then
        let m := buildClassStylesL rules
        let doc1 := applyAllRules m doc
        let doc2 := pruneFirstDefs (removeFirstDefsStyle doc1)
        let doc3 := if rn then convertToReactNativeSvg doc2 else doc2
        some (some (serializeN doc3))
      else none

/-- Find the first occurrence of a literal in a text; returns the text
before the occurrence and the text after it. -/
def findLitGo (lit : List Char) : Nat → List Char → Option (List Char × List Char)
  | 0, _ => none
  | fuel + 1, cs =>
    if startsWithL lit cs then some ([], List.drop lit.length cs)
    else
      match cs with
      | [] => none
      | c :: rest =>
        match findLitGo lit fuel rest with
        | some (pre, post) => some (c :: pre, post)
        | none => none

def findLit (lit cs : List Char) : Option (List Char × List Char) :=
  findLitGo lit (cs.length + 1) cs

/-- The literal opening style tag of the fallback regexes. -/
def openStyleLit : List Char := ("<style>").data

/-- The literal closing style tag of the fallback regexes. -/
def closeStyleLit : List Char := ("</style>").data

/-- The single `styleRegex.exec(svgContent)` of the fallback
(src/index.js:120-121): the first style block only, its inner text
trimmed by the surrounding whitespace matchers. -/
def extractFirstStyleL (cs : List Char) : Option (List Char) :=
  match findLit openStyleLit cs with
  | none => none
  | some (_, after) =>
    match findLit closeStyleLit after with
    | none => none
    | some (content, _) => some (trimL content)

/-- Word-character classification lifted to an optional character; absent
characters (text edges) count as non-word, as for the regex boundary. -/
def isWordOpt : Option Char → Bool
  | none => false
  | some c => isWordChar c

/-- A regex word boundary sits between two positions iff exactly one side
is a word character. -/
def boundaryB (x y : Option Char) : Bool := isWordOpt x != isWordOpt y

/-- Scan for an occurrence of `cls` in the remaining text that is
word-bounded on both sides (the `\b...\b` of src/index.js:145),
tracking the previous character. -/
def hasBoundedGo (cls : List Char) : Nat → Option Char → List Char → Bool
  | 0, _, _ => false
  | fuel + 1, prev, cs =>
    if startsWithL cls cs && boundaryB prev cs.head? &&
        boundaryB cls.getLast? (List.drop cls.length cs).head? then true
    else
      match cs with
      | [] => false
      | c :: rest => hasBoundedGo cls fuel (some c) rest

def hasBoundedOcc (cls v : List Char) : Bool :=
  hasBoundedGo cls (v.length + 1) none v

/-- JS `value.split(/\s+/)`: interior whitespace runs separate tokens and
leading or trailing runs contribute an empty token at that edge. -/
def jsSplitWs (v : List Char) : List (List Char) :=
  match v with
  | [] => [[]]
  | _ =>
    (if isWsChar (v.headD ' ') then [([] : List Char)] else []) ++
      splitDomTokensL v ++
      (if isWsChar ((v.getLast?).getD ' ') then [([] : List Char)] else [])

/-- The literal class attribute opener of the fallback matcher. -/
def classAttrLit : List Char := ("class=\"").data

/-- The declaration-to-inline conversion of the fallback
(src/index.js:134-141): nonempty `;`-fragments, each re-emitted as
name:value with the parts of the first-two-way colon split (a missing
value prints as the string undefined, as the JS template does). -/
def inlineStyleOfL (body : List Char) : List Char :=
  joinSepL ';'
    (((splitOnCharL ';' body).filter (fun p => trimL p ≠ [])).map
      (fun p => (splitPropL p).1 ++ ':' :: (((splitPropL p).2).getD (("undefined").data))))

/-- The replacement string computed by the fallback for one matched class
attribute (src/index.js:148-162). -/
def classReplacement (cls inline v : List Char) : List Char :=
  let filtered := joinSepL ' ' ((jsSplitWs v).filter (fun t => t ≠ cls))
  if filtered = [] then ("style=\"").data ++ inline ++ ['"']
  else classAttrLit ++ filtered ++ '"' :: ' ' :: (("style=\"").data ++ inline ++ ['"'])

/-- The global regex replace for one class (src/index.js:144-163): scan
for class="..." attributes whose value has a word-bounded occurrence of
the class name, substitute the computed replacement, resume after the
match; otherwise advance one character. -/
def applyClassTextualGo (cls inline : List Char) : Nat → List Char → List Char
  | 0, cs => cs
  | fuel + 1, cs =>
    if startsWithL classAttrLit cs then
      match (List.drop classAttrLit.length cs).takeWhile (fun ch => ch ≠ '"'),
            (List.drop classAttrLit.length cs).dropWhile (fun ch => ch ≠ '"') with
      | v, '"' :: rest =>
        if hasBoundedOcc cls v then
          classReplacement cls inline v ++ applyClassTextualGo cls inline fuel rest
        else
          match cs with
          | [] => []
          | c :: rest2 => c :: applyClassTextualGo cls inline fuel rest2
      | _, _ =>
        match cs with
        | [] => []
        | c :: rest2 => c :: applyClassTextualGo cls inline fuel rest2
    else
      match cs with
      | [] => []
      | c :: rest2 => c :: applyClassTextualGo cls inline fuel rest2

def applyClassTextual (cls inline cs : List Char) : List Char :=
  applyClassTextualGo cls inline (cs.length + 1) cs

/-- `modifiedSvg.replace(/<style>[\s\S]*?<\/style>/g, "")`
(src/index.js:167): remove every non-overlapping style block, resuming
after each removed block. -/
def removeStyleBlocksGo : Nat → List Char → List Char
  | 0, cs => cs
  | fuel + 1, cs =>
    if startsWithL openStyleLit cs then
      match findLit closeStyleLit (List.drop openStyleLit.length cs) with
      | some (_, after) => removeStyleBlocksGo fuel after
      | none =>
        match cs with
        | [] => []
        | c :: rest => c :: removeStyleBlocksGo fuel rest
    else
      match cs with
      | [] => []
      | c :: rest => c :: removeStyleBlocksGo fuel rest

def removeStyleBlocksL (cs : List Char) : List Char :=
  removeStyleBlocksGo (cs.length + 1) cs

/-- The literal opening defs tag. -/
def openDefsLit : List Char := ("<defs>").data

/-- The literal closing defs tag. -/
def closeDefsLit : List Char := ("</defs>").data

/-- `modifiedSvg.replace(/<defs>\s*<\/defs>/g, "")` (src/index.js:170). -/
def removeEmptyDefsGo : Nat → List Char → List Char
  | 0, cs => cs
  | _ + 1, [] => []
  | fuel + 1, c :: cs =>
    if startsWithL openDefsLit (c :: cs) then
      if startsWithL closeDefsLit
          ((List.drop openDefsLit.length (c :: cs)).dropWhile isWsChar) then
        removeEmptyDefsGo fuel
          (List.drop closeDefsLit.length
            ((List.drop openDefsLit.length (c :: cs)).dropWhile isWsChar))
      else c :: removeEmptyDefsGo fuel cs
    else c :: removeEmptyDefsGo fuel cs

def removeEmptyDefsL (cs : List Char) : List Char :=
  removeEmptyDefsGo (cs.length + 1) cs

/-- One open-tag rename pass of the textual renamer: the regex
`<name(\s|>)` replaced by `<Name$1` globally (src/index.js:203,207). -/
def renameOpenGo (n : List Char) : Nat → List Char → List Char
  | 0, cs => cs
  | _ + 1, [] => []
  | fuel + 1, c :: cs =>
    if startsWithL ('<' :: n) (c :: cs) then
      match List.drop (n.length + 1) (c :: cs) with
      | d :: rest2 =>
        if isWsChar d || d = '>' then
          '<' :: (capitalizeL n ++ d :: renameOpenGo n fuel rest2)
        else c :: renameOpenGo n fuel cs
      | [] => c :: renameOpenGo n fuel cs
    else c :: renameOpenGo n fuel cs

/-- One close-tag rename pass: the regex `</name>` replaced by `</Name>`
globally (src/index.js:204,208). -/
def renameCloseGo (n : List Char) : Nat → List Char → List Char
  | 0, cs => cs
  | _ + 1, [] => []
  | fuel + 1, c :: cs =>
    if startsWithL ('<' :: '/' :: (n ++ ['>'])) (c :: cs) then
      '<' :: '/' :: (capitalizeL n ++ '>' ::
        renameCloseGo n fuel (List.drop (n.length + 3) (c :: cs)))
    else c :: renameCloseGo n fuel cs

/-- The textual tag renamer (src/index.js:201-209): for each vocabulary
name in order, an open-tag pass over the whole text then a close-tag
pass. -/
def renameTextAllL (cs : List Char) : List Char :=
  svgElementsL.foldl
    (fun acc n => renameCloseGo n ((renameOpenGo n (acc.length + 1) acc).length + 1)
      (renameOpenGo n (acc.length + 1) acc)) cs

/-- The textual fallback pipeline (src/index.js:112-269) on an in-memory
input.  The style branch requires a nonempty extracted style text, since
the JS guard `styleMatch && styleMatch[1]` treats an empty capture as no
match.  With no style block the input is copied verbatim (renamed first
when requested). -/
def fallbackConvertL (input : List Char) (rn : Bool) : List Char :=
  match extractFirstStyleL input with
  | some styleContent =>
    if styleContent = [] then
      if rn then renameTextAllL input else input
    else
      let rules := scanRulesL styleContent
      let t1 := rules.foldl
        (fun acc r => applyClassTextual r.1 (inlineStyleOfL r.2) acc) input
      let t2 := removeEmptyDefsL (removeStyleBlocksL t1)
      if rn then renameTextAllL t2 else t2
  | none =>
    if rn then renameTextAllL input else input

/-- The whole converter `convertSvgStylesToInline` (src/index.js:13-274)
as a function from input text to the text written to the output path:
none when no output file is written at all (the early return of
src/index.js:36-38); when any structured stage raises, the textual
fallback re-derives the output from the original, unsanitized input. -/
def convertSvgStylesToInline (input : String) (rn : Bool) : Option String :=
  match convertStructuredL input.data rn with
  | some out => out.map (fun cs => String.mk cs)
  | none => some (String.mk (fallbackConvertL input.data rn))

/-- Claim C4, confirmed.  Scenario 1 end to end: on the given input with
rename disabled the structured pipeline writes exactly the expected
output: the defs block is gone, the class attribute is gone, both
declarations appear in the new style attribute in order, and the
remaining attribute d keeps its position before the appended style. -/
theorem C4_scenario1 :
    convertSvgStylesToInline
      ("<svg><defs><style>.a\x7bfill:red;stroke:blue;\x7d</style></defs><path class=\"a\" d=\"M0 0\"/></svg>")
      false =
      some ("<svg><path d=\"M0 0\" style=\"fill:red;stroke:blue;\"/></svg>") := by
  decide

/-- Claim C3, confirmed.  Whenever the structured pipeline raises (the
model's failure value), the converter's result is exactly the textual
fallback applied to the original, unmodified input text: no partially
transformed structured state can reach the output, which is re-derived
from the raw input alone. -/
theorem C3_fallback_activation (input : String) (rn : Bool)
    (h : convertStructuredL input.data rn = none) :
    convertSvgStylesToInline input rn =
      some (String.mk (fallbackConvertL input.data rn)) := by
  unfold convertSvgStylesToInline
  rw [h]

theorem C3_witness :
    convertStructuredL (("<svg").data) false = none ∧
    convertSvgStylesToInline ("<svg") false =
      some (String.mk (fallbackConvertL (("<svg").data) false)) :=
  ⟨by decide, C3_fallback_activation ("<svg") false (by decide)⟩

/-- The parsed document of the no-style input used for claim C7. -/
def c7Tree : NodeL :=
  NodeL.elem (("svg").data) []
    (.cons (NodeL.elem (("path").data) [((("d").data), (("M0 0").data))] .nil) .nil)

/-- Claim C7 counterexample: on a well-parsed input with no style element
under defs and rename disabled, the converter writes no output at all
(the early return of src/index.js:36-38), rather than terminating with
the unmodified tree as its serialized output as the claim states; in
particular the output is not the serialization of the parsed tree. -/
theorem C7_counterexample :
    parseDocL (sanitizeL (("<svg><path d=\"M0 0\"/></svg>").data)) = some c7Tree ∧
    convertSvgStylesToInline ("<svg><path d=\"M0 0\"/></svg>") false = none ∧
    convertSvgStylesToInline ("<svg><path d=\"M0 0\"/></svg>") false ≠
      some (String.mk (serializeN c7Tree)) := by
  refine ⟨rfl, by decide, by decide⟩

/-- Claim C7, corrected.  When the document parses and contains no style
element under defs and rename is not requested, the structured pipeline
returns early and writes no output at all; the tree is never modified
and never serialized.  (Running the transform twice on such input is
then trivially output-identical: neither run writes anything.) -/
theorem C7_amended (input : String) (doc : NodeL)
    (hparse : parseDocL (sanitizeL input.data) = some doc)
    (hnostyle : findDSN false doc = none) :
    convertSvgStylesToInline input false = none := by
  unfold convertSvgStylesToInline convertStructuredL
  rw [hparse]
  simp [hnostyle]

theorem C7_witness :
    (parseDocL (sanitizeL (("<svg><rect width=\"3\"/></svg>").data)) =
        some (NodeL.elem (("svg").data) []
          (.cons (NodeL.elem (("rect").data) [((("width").data), (("3").data))] .nil) .nil)) ∧
      findDSN false (NodeL.elem (("svg").data) []
        (.cons (NodeL.elem (("rect").data) [((("width").data), (("3").data))] .nil) .nil)) = none) ∧
    convertSvgStylesToInline ("<svg><rect width=\"3\"/></svg>") false = none :=
  ⟨⟨rfl, rfl⟩,
    C7_amended ("<svg><rect width=\"3\"/></svg>")
      (NodeL.elem (("svg").data) []
        (.cons (NodeL.elem (("rect").data) [((("width").data), (("3").data))] .nil) .nil))
      rfl rfl⟩

/-- Claim C2 counterexample: with the style text
.a\x7bfill:red;stroke:blue;\x7d.a\x7bfill:green;\x7d the pair (stroke, blue) is
declared by the earlier rule for class a, yet the transformed element's
inline style is exactly fill:green; — the earlier declaration's
property is not applied, refuting property-level layering. -/
theorem C2_counterexample :
    convertSvgStylesToInline
      ("<svg><defs><style>.a\x7bfill:red;stroke:blue;\x7d.a\x7bfill:green;\x7d</style></defs><path class=\"a\"/></svg>")
      false = some ("<svg><path style=\"fill:green;\"/></svg>") ∧
    ((("stroke").data), some (("blue").data)) ∈
      parseStylePropsL (("fill:red;stroke:blue;").data) ∧
    ((("stroke").data), (("blue").data)) ∉ parseStyleAttrL (("fill:green;").data) := by
  refine ⟨by decide, by decide, by decide⟩

mutual
theorem mapElems_comp_N (f g : List Char → AttrsL → List Char × AttrsL) :
    ∀ n : NodeL,
      mapElemsN f (mapElemsN g n) = mapElemsN (fun t a => f (g t a).1 (g t a).2) n
  | .text s => rfl
  | .elem t a cs => by
    simp only [mapElemsN]
    rw [mapElems_comp_L f g cs]
theorem mapElems_comp_L (f g : List Char → AttrsL → List Char × AttrsL) :
    ∀ ns : NodeListL,
      mapElemsL f (mapElemsL g ns) = mapElemsL (fun t a => f (g t a).1 (g t a).2) ns
  | .nil => rfl
  | .cons n ns => by
    simp only [mapElemsL]
    rw [mapElems_comp_N f g n, mapElems_comp_L f g ns]
end

mutual
theorem mapElems_congr_N (f g : List Char → AttrsL → List Char × AttrsL)
    (h : ∀ t a, f t a = g t a) :
    ∀ n : NodeL, mapElemsN f n = mapElemsN g n
  | .text s => rfl
  | .elem t a cs => by
    simp only [mapElemsN]
    rw [h t a, mapElems_congr_L f g h cs]
theorem mapElems_congr_L (f g : List Char → AttrsL → List Char × AttrsL)
    (h : ∀ t a, f t a = g t a) :
    ∀ ns : NodeListL, mapElemsL f ns = mapElemsL g ns
  | .nil => rfl
  | .cons n ns => by
    simp only [mapElemsL]
    rw [mapElems_congr_N f g h n, mapElems_congr_L f g h ns]
end

mutual
theorem mapElems_id_N : ∀ n : NodeL, mapElemsN (fun t a => (t, a)) n = n
  | .text s => rfl
  | .elem t a cs => by
    simp only [mapElemsN]
    rw [mapElems_id_L cs]
theorem mapElems_id_L : ∀ ns : NodeListL, mapElemsL (fun t a => (t, a)) ns = ns
  | .nil => rfl
  | .cons n ns => by
    simp only [mapElemsL]
    rw [mapElems_id_N n, mapElems_id_L ns]
end

theorem applyAllRules_as_map (m : List (List Char × List Char)) :
    ∀ doc : NodeL,
      applyAllRules m doc = mapElemsN (fun t a => (t, applyAllRulesA m a)) doc := by
  induction m with
  | nil =>
    intro doc
    show doc = mapElemsN (fun t a => (t, applyAllRulesA [] a)) doc
    have h1 := mapElems_congr_N (fun t a => (t, applyAllRulesA ([] : List (List Char × List Char)) a))
      (fun t a => (t, a)) (fun t a => rfl) doc
    rw [h1, mapElems_id_N doc]
  | cons r m ih =>
    intro doc
    show applyAllRules m (applyClassName r.1 r.2 doc) = _
    rw [ih (applyClassName r.1 r.2 doc)]
    unfold applyClassName
    rw [mapElems_comp_N]
    rfl

mutual
theorem attrsN_mapElems (h : AttrsL → AttrsL) :
    ∀ n : NodeL, attrsN (mapElemsN (fun t a => (t, h a)) n) = (attrsN n).map h
  | .text s => rfl
  | .elem t a cs => by
    simp only [mapElemsN, attrsN, List.map_cons]
    rw [attrsLst_mapElems h cs]
theorem attrsLst_mapElems (h : AttrsL → AttrsL) :
    ∀ ns : NodeListL, attrsLst (mapElemsL (fun t a => (t, h a)) ns) = (attrsLst ns).map h
  | .nil => rfl
  | .cons n ns => by
    simp only [mapElemsL, attrsLst, List.map_append]
    rw [attrsN_mapElems h n, attrsLst_mapElems h ns]
end

/-- Claim C1, corrected.  For a parsed class-style map (distinct keys, as
the map construction guarantees) containing class C with declaration d,
and any element whose class token set contains C: after the whole
class-application stage, (conjunct 1 and 2) the stage acts element-wise
over the document, so the per-element characterization applies to every
element; (conjunct 3) every property p declared for C is present in that
element's final inline style, bound to the LAST value written to p
across all applied declarations — the declared pair (p, v) itself
survives only when nothing later rewrites p, which is what the
counterexample forces the claim to weaken to; (conjunct 4) no class
attribute contains C afterwards; and (conjunct 5) the class attribute is
removed entirely once the element's token set becomes empty. -/
theorem C1_amended (m : List (List Char × List Char)) (doc : NodeL) (a : AttrsL)
    (C d p v : List Char)
    (hkeys : (m.map Prod.fst).Nodup)
    (hm : (C, d) ∈ m)
    (hC : C ∈ classTokensA a)
    (hp : (p, some v) ∈ parseStylePropsL d) :
    applyAllRules m doc = mapElemsN (fun t a0 => (t, applyAllRulesA m a0)) doc ∧
    attrsN (applyAllRules m doc) = (attrsN doc).map (applyAllRulesA m) ∧
    (∃ w, lastDeclL (writesOfRules m (classTokensA a)) p = some w ∧
      lookupA (stylePairsOfA (applyAllRulesA m a)) p = some w) ∧
    C ∉ classTokensA (applyAllRulesA m a) ∧
    (classTokensA (applyAllRulesA m a) = [] →
      lookupA (applyAllRulesA m a) classAttrName = none) := by
  have hspec := applyAllRulesA_spec m a hkeys
  have hmemw : p ∈ (writesOfRules m (classTokensA a)).map Prod.fst :=
    mem_writesOfRules hm hC hp
  refine ⟨applyAllRules_as_map m doc, ?_, ?_, ?_, ?_⟩
  · rw [applyAllRules_as_map m doc]
    exact attrsN_mapElems (applyAllRulesA m) doc
  · rcases lastDeclL_of_mem_aux p (writesOfRules m (classTokensA a)) none
        (Or.inl hmemw) with ⟨w, hw⟩
    refine ⟨w, hw, ?_⟩
    rw [hspec.1]
    rw [style_final_lookup _ _ p hmemw]
    exact hw
  · rw [hspec.2.1]
    intro hmem
    have h2 := (List.mem_filter.1 hmem).2
    have h3 : C ∈ m.map Prod.fst := List.mem_map_of_mem Prod.fst hm
    simp [h3] at h2
  · intro hempty
    have hcanon := hspec.2.2 ⟨(C, d), hm, hC⟩
    unfold CanonClass at hcanon
    rw [hempty] at hcanon
    rw [hcanon]
    rfl

/-- Concrete class-style map used by the C1 witness. -/
def c1m : List (List Char × List Char) := [((("a").data), (("fill:red").data))]

/-- Concrete element attribute list used by the C1 witness. -/
def c1a : AttrsL := [((("class").data), (("a").data))]

theorem C1_witness :
    ((c1m.map Prod.fst).Nodup ∧
      ((("a").data), (("fill:red").data)) ∈ c1m ∧
      (("a").data) ∈ classTokensA c1a ∧
      ((("fill").data), some (("red").data)) ∈ parseStylePropsL (("fill:red").data)) ∧
    ((∃ w, lastDeclL (writesOfRules c1m (classTokensA c1a)) (("fill").data) = some w ∧
        lookupA (stylePairsOfA (applyAllRulesA c1m c1a)) (("fill").data) = some w) ∧
      (("a").data) ∉ classTokensA (applyAllRulesA c1m c1a) ∧
      (classTokensA (applyAllRulesA c1m c1a) = [] →
        lookupA (applyAllRulesA c1m c1a) classAttrName = none)) :=
  ⟨⟨by decide, by decide, by decide, by decide⟩,
    (C1_amended c1m (NodeL.text []) c1a (("a").data) (("fill:red").data)
      (("fill").data) (("red").data)
      (by decide) (by decide) (by decide) (by decide)).2.2⟩

/-- Claim C1 counterexample: the path element references classes a and b,
rule .a declares the pair (fill, red), yet after the transform the
element's inline style is exactly fill:green; (class b, applied later,
rewrote the property), so not every pair declared for a referenced class
appears in the final inline style. -/
theorem C1_counterexample :
    convertSvgStylesToInline
      ("<svg><defs><style>.a\x7bfill:red;\x7d.b\x7bfill:green;\x7d</style></defs><path class=\"a b\"/></svg>")
      false = some ("<svg><path style=\"fill:green;\"/></svg>") ∧
    ((("fill").data), some (("red").data)) ∈ parseStylePropsL (("fill:red;").data) ∧
    ((("fill").data), (("red").data)) ∉ parseStyleAttrL (("fill:green;").data) := by
  refine ⟨by decide, by decide, by decide⟩

/-- The pointwise tag renaming the whole renamer amounts to: capitalize
exactly the tags in the Element Vocabulary. -/
def capIfVocab (t : List Char) : List Char :=
  if t ∈ svgElementsL then capitalizeL t else t

theorem cap_vocab_free : ∀ n ∈ svgElementsL, capitalizeL n ∉ svgElementsL := by
  decide

theorem foldRenames_of_not_mem :
    ∀ (ns : List (List Char)) (t : List Char), t ∉ ns →
      ns.foldl (fun s n => if s = n then capitalizeL n else s) t = t := by
  intro ns
  induction ns with
  | nil => intro t _; rfl
  | cons n ns ih =>
    intro t ht
    have htn : t ≠ n := fun h => ht (by rw [h]; exact List.mem_cons_self n ns)
    simp only [List.foldl_cons, if_neg htn]
    exact ih t (fun h => ht (List.mem_cons_of_mem n h))

theorem foldRenames_spec :
    ∀ (ns : List (List Char)), (∀ n ∈ ns, capitalizeL n ∉ ns) →
      ∀ (t : List Char),
      ns.foldl (fun s n => if s = n then capitalizeL n else s) t =
        (if t ∈ ns then capitalizeL t else t) := by
  intro ns
  induction ns with
  | nil => intro _ t; simp
  | cons n ns ih =>
    intro hcap t
    have hcap2 : ∀ n2 ∈ ns, capitalizeL n2 ∉ ns := by
      intro n2 h2
      have := hcap n2 (List.mem_cons_of_mem n h2)
      exact fun hm => this (List.mem_cons_of_mem n hm)
    simp only [List.foldl_cons]
    by_cases htn : t = n
    · rw [if_pos htn]
      have hnot : capitalizeL n ∉ ns := by
        have := hcap n (List.mem_cons_self n ns)
        exact fun hm => this (List.mem_cons_of_mem n hm)
      rw [foldRenames_of_not_mem ns (capitalizeL n) hnot]
      rw [if_pos (by rw [htn]; exact List.mem_cons_self n ns), htn]
    · rw [if_neg htn, ih hcap2 t]
      by_cases hts : t ∈ ns
      · rw [if_pos hts, if_pos (List.mem_cons_of_mem n hts)]
      · rw [if_neg hts, if_neg (by
          intro hm
          rcases List.mem_cons.1 hm with h1 | h1
          · exact htn h1
          · exact hts h1)]

theorem renameFold_as_map :
    ∀ (ns : List (List Char)) (doc : NodeL),
      ns.foldl (fun acc n => renameOneTag n acc) doc =
        mapElemsN (fun t a =>
          (ns.foldl (fun s n => if s = n then capitalizeL n else s) t, a)) doc := by
  intro ns
  induction ns with
  | nil =>
    intro doc
    show doc = mapElemsN (fun t a => (t, a)) doc
    rw [mapElems_id_N doc]
  | cons n ns ih =>
    intro doc
    show (ns.foldl (fun acc n => renameOneTag n acc) (renameOneTag n doc)) = _
    rw [ih (renameOneTag n doc)]
    unfold renameOneTag
    rw [mapElems_comp_N]
    rfl

theorem rename_as_map (doc : NodeL) :
    convertToReactNativeSvg doc = mapElemsN (fun t a => (capIfVocab t, a)) doc := by
  unfold convertToReactNativeSvg
  rw [renameFold_as_map svgElementsL doc]
  apply mapElems_congr_N
  intro t a
  rw [foldRenames_spec svgElementsL cap_vocab_free t]
  rfl

theorem lenNL_mapElems (f : List Char → AttrsL → List Char × AttrsL) :
    ∀ ns : NodeListL, lenNL (mapElemsL f ns) = lenNL ns
  | .nil => rfl
  | .cons n ns => by
    simp only [mapElemsL, lenNL]
    rw [lenNL_mapElems f ns]

mutual
theorem countElems_mapTag (f : List Char → List Char) :
    ∀ n : NodeL, countElemsN (mapElemsN (fun t a => (f t, a)) n) = countElemsN n
  | .text s => rfl
  | .elem t a cs => by
    simp only [mapElemsN, countElemsN]
    rw [countElems_mapTag_L f cs]
theorem countElems_mapTag_L (f : List Char → List Char) :
    ∀ ns : NodeListL, countElemsLst (mapElemsL (fun t a => (f t, a)) ns) = countElemsLst ns
  | .nil => rfl
  | .cons n ns => by
    simp only [mapElemsL, countElemsLst]
    rw [countElems_mapTag f n, countElems_mapTag_L f ns]
end

mutual
theorem tags_mapTag (f : List Char → List Char) :
    ∀ n : NodeL, tagsN (mapElemsN (fun t a => (f t, a)) n) = (tagsN n).map f
  | .text s => rfl
  | .elem t a cs => by
    simp only [mapElemsN, tagsN, List.map_cons]
    rw [tags_mapTag_L f cs]
theorem tags_mapTag_L (f : List Char → List Char) :
    ∀ ns : NodeListL, tagsLst (mapElemsL (fun t a => (f t, a)) ns) = (tagsLst ns).map f
  | .nil => rfl
  | .cons n ns => by
    simp only [mapElemsL, tagsLst, List.map_append]
    rw [tags_mapTag f n, tags_mapTag_L f ns]
end

mutual
theorem attrs_mapTag (f : List Char → List Char) :
    ∀ n : NodeL, attrsN (mapElemsN (fun t a => (f t, a)) n) = attrsN n
  | .text s => rfl
  | .elem t a cs => by
    simp only [mapElemsN, attrsN]
    rw [attrs_mapTag_L f cs]
theorem attrs_mapTag_L (f : List Char → List Char) :
    ∀ ns : NodeListL, attrsLst (mapElemsL (fun t a => (f t, a)) ns) = attrsLst ns
  | .nil => rfl
  | .cons n ns => by
    simp only [mapElemsL, attrsLst]
    rw [attrs_mapTag f n, attrs_mapTag_L f ns]
end

mutual
theorem childCounts_mapTag (f : List Char → List Char) :
    ∀ n : NodeL, childCountsN (mapElemsN (fun t a => (f t, a)) n) = childCountsN n
  | .text s => rfl
  | .elem t a cs => by
    simp only [mapElemsN, childCountsN]
    rw [childCounts_mapTag_L f cs, lenNL_mapElems]
theorem childCounts_mapTag_L (f : List Char → List Char) :
    ∀ ns : NodeListL, childCountsLst (mapElemsL (fun t a => (f t, a)) ns) = childCountsLst ns
  | .nil => rfl
  | .cons n ns => by
    simp only [mapElemsL, childCountsLst]
    rw [childCounts_mapTag f n, childCounts_mapTag_L f ns]
end

mutual
theorem texts_mapTag (f : List Char → List Char) :
    ∀ n : NodeL, textsN (mapElemsN (fun t a => (f t, a)) n) = textsN n
  | .text s => rfl
  | .elem t a cs => by
    simp only [mapElemsN, textsN]
    rw [texts_mapTag_L f cs]
theorem texts_mapTag_L (f : List Char → List Char) :
    ∀ ns : NodeListL, textsLst (mapElemsL (fun t a => (f t, a)) ns) = textsLst ns
  | .nil => rfl
  | .cons n ns => by
    simp only [mapElemsL, textsLst]
    rw [texts_mapTag f n, texts_mapTag_L f ns]
end

/-- Claim C6, confirmed.  The tag renamer is exactly an element-wise tag
substitution: it capitalizes tags in the Element Vocabulary and touches
nothing else.  Consequently the element count, the preorder sequence of
attribute lists (names, values and their order), the preorder sequence
of child counts (hence every node's position among its parent's
children), and all text nodes are identical before and after, while the
preorder tag sequence is the pointwise capitalize-if-in-vocabulary image
of the original. -/
theorem C6_rename_preservation (doc : NodeL) :
    convertToReactNativeSvg doc = mapElemsN (fun t a => (capIfVocab t, a)) doc ∧
    countElemsN (convertToReactNativeSvg doc) = countElemsN doc ∧
    tagsN (convertToReactNativeSvg doc) = (tagsN doc).map capIfVocab ∧
    attrsN (convertToReactNativeSvg doc) = attrsN doc ∧
    childCountsN (convertToReactNativeSvg doc) = childCountsN doc ∧
    textsN (convertToReactNativeSvg doc) = textsN doc := by
  have hmap := rename_as_map doc
  refine ⟨hmap, ?_, ?_, ?_, ?_, ?_⟩
  · rw [hmap]; exact countElems_mapTag capIfVocab doc
  · rw [hmap]; exact tags_mapTag capIfVocab doc
  · rw [hmap]; exact attrs_mapTag capIfVocab doc
  · rw [hmap]; exact childCounts_mapTag capIfVocab doc
  · rw [hmap]; exact texts_mapTag capIfVocab doc

theorem startsWithL_self_append : ∀ (lit x : List Char), startsWithL lit (lit ++ x) = true := by
  intro lit
  induction lit with
  | nil => intro x; rfl
  | cons l ls ih =>
    intro x
    simp only [List.cons_append, startsWithL]
    have ih2 : startsWithL ls (ls.append x) = true := ih x
    rw [ih2]
    simp

theorem takeWhile_until (p : Char → Bool) :
    ∀ (v : List Char) (y : Char) (rest : List Char),
      (∀ c ∈ v, p c = true) → p y = false →
      (v ++ y :: rest).takeWhile p = v ∧ (v ++ y :: rest).dropWhile p = y :: rest := by
  intro v
  induction v with
  | nil =>
    intro y rest _ hy
    constructor
    · simp [List.takeWhile_cons, hy]
    · simp [List.dropWhile_cons, hy]
  | cons c v ih =>
    intro y rest hv hy
    have hc : p c = true := hv c (by simp)
    have hv2 : ∀ c2 ∈ v, p c2 = true := fun c2 h2 => hv c2 (List.mem_cons_of_mem c h2)
    have ih2 := ih y rest hv2 hy
    constructor
    · simp only [List.cons_append, List.takeWhile_cons, hc, if_true]
      rw [ih2.1]
    · simp only [List.cons_append, List.dropWhile_cons, hc, if_true]
      exact ih2.2

theorem length_dropWhile_le_own (p : Char → Bool) :
    ∀ l : List Char, (l.dropWhile p).length ≤ l.length := by
  intro l
  induction l with
  | nil => simp
  | cons c cs ih =>
    rw [List.dropWhile_cons]
    by_cases hc : p c
    · rw [if_pos hc]
      simp only [List.length_cons]
      omega
    · rw [if_neg hc]

theorem dropWhile_quote_head (l : List Char) (y : Char) (ys : List Char)
    (h : l.dropWhile (fun ch => decide (ch ≠ '"')) = y :: ys) : y = '"' := by
  have hhd := List.head?_dropWhile_not (fun ch => decide (ch ≠ '"')) l
  rw [h] at hhd
  simp only [List.head?_cons] at hhd
  simpa using hhd

theorem sanitizeGo_fuel :
    ∀ (fuel1 : Nat) (cs : List Char) (fuel2 : Nat),
      cs.length ≤ fuel1 → cs.length ≤ fuel2 →
      sanitizeGo fuel1 cs = sanitizeGo fuel2 cs := by
  intro fuel1
  induction fuel1 with
  | zero =>
    intro cs fuel2 h1 _
    have hnil : cs = [] := by
      cases cs with
      | nil => rfl
      | cons c cs => simp at h1
    subst hnil
    cases fuel2 with
    | zero => rfl
    | succ n =>
      show sanitizeGo 0 [] = sanitizeGo (n + 1) []
      simp only [sanitizeGo]
      rw [show startsWithL dataNameLit [] = false from by decide]
      simp
  | succ n1 ih =>
    intro cs fuel2 h1 h2
    cases cs with
    | nil =>
      cases fuel2 with
      | zero =>
        show sanitizeGo (n1 + 1) [] = sanitizeGo 0 []
        simp only [sanitizeGo]
        rw [show startsWithL dataNameLit [] = false from by decide]
        simp
      | succ n2 =>
        simp only [sanitizeGo]
        rw [show startsWithL dataNameLit [] = false from by decide]
        simp
    | cons c cs2 =>
      cases fuel2 with
      | zero => simp at h2
      | succ n2 =>
        have hlen : cs2.length ≤ n1 := by simpa using h1
        have hlen2 : cs2.length ≤ n2 := by simpa using h2
        have ihc := ih cs2 n2 hlen hlen2
        simp only [sanitizeGo]
        by_cases hsw : startsWithL dataNameLit (c :: cs2) = true
        · rw [if_pos hsw, if_pos hsw]
          rcases htk : (List.drop dataNameLit.length (c :: cs2)).takeWhile
              (fun ch => ch ≠ '"') with _ | ⟨v0, vt⟩ <;>
            rcases hdw : (List.drop dataNameLit.length (c :: cs2)).dropWhile
              (fun ch => ch ≠ '"') with _ | ⟨y, ys⟩
          · show c :: sanitizeGo n1 cs2 = c :: sanitizeGo n2 cs2
            rw [ihc]
          · have hy := dropWhile_quote_head _ y ys hdw
            subst hy
            show c :: sanitizeGo n1 cs2 = c :: sanitizeGo n2 cs2
            rw [ihc]
          · show c :: sanitizeGo n1 cs2 = c :: sanitizeGo n2 cs2
            rw [ihc]
          · have hy := dropWhile_quote_head _ y ys hdw
            subst hy
            show dataNameLit ++ (squashWs (v0 :: vt) ++ '"' :: sanitizeGo n1 ys) =
              dataNameLit ++ (squashWs (v0 :: vt) ++ '"' :: sanitizeGo n2 ys)
            have hys : ys.length ≤ cs2.length := by
              have hsub := length_dropWhile_le_own (fun ch => decide (ch ≠ '"'))
                (List.drop dataNameLit.length (c :: cs2))
              rw [hdw] at hsub
              have h11 : dataNameLit.length = 11 := by decide
              rw [List.length_drop, h11] at hsub
              simp only [List.length_cons] at hsub
              omega
            rw [ih ys n2 (by omega) (by omega)]
        · rw [if_neg hsw, if_neg hsw]
          show c :: sanitizeGo n1 cs2 = c :: sanitizeGo n2 cs2
          rw [ihc]

theorem sanitize_splice_aux :
    ∀ (pfx : List Char) (fuel : Nat) (v rest : List Char),
      v ≠ [] → '"' ∉ v →
      (∀ k, k < pfx.length →
        startsWithL dataNameLit
          (List.drop k (pfx ++ dataNameLit ++ v ++ '"' :: rest)) = false) →
      (pfx ++ dataNameLit ++ v ++ '"' :: rest).length ≤ fuel →
      sanitizeGo fuel (pfx ++ dataNameLit ++ v ++ '"' :: rest) =
        pfx ++ dataNameLit ++ (squashWs v ++ '"' :: sanitizeL rest) := by
  intro pfx
  induction pfx with
  | nil =>
    intro fuel v rest hv hq hno hfuel
    have h11 : dataNameLit.length = 11 := by decide
    rcases v with _ | ⟨v0, vt⟩
    · exact absurd rfl hv
    · cases fuel with
      | zero =>
        exfalso
        simp only [List.nil_append, List.length_append, List.length_cons, h11] at hfuel
        omega
      | succ f =>
        simp only [List.nil_append] at hfuel ⊢
        simp only [sanitizeGo]
        have hsw : startsWithL dataNameLit (dataNameLit ++ v0 :: vt ++ '"' :: rest) = true :=
          startsWithL_self_append dataNameLit ((v0 :: vt) ++ '"' :: rest)
        rw [if_pos hsw]
        have hdl : List.drop dataNameLit.length (dataNameLit ++ v0 :: vt ++ '"' :: rest) =
            (v0 :: vt) ++ '"' :: rest :=
          List.drop_left dataNameLit ((v0 :: vt) ++ '"' :: rest)
        rw [hdl]
        have hvp : ∀ c ∈ (v0 :: vt), (fun ch => decide (ch ≠ '"')) c = true := by
          intro c hc
          simp only [decide_eq_true_eq]
          exact fun h => hq (h ▸ hc)
        have htd := takeWhile_until (fun ch => decide (ch ≠ '"')) (v0 :: vt) '"' rest hvp
          (by decide)
        rw [htd.1, htd.2]
        show dataNameLit ++ (squashWs (v0 :: vt) ++ '"' :: sanitizeGo f rest) = _
        have hrest : rest.length ≤ f := by
          simp only [List.length_append, List.length_cons, h11] at hfuel
          omega
        rw [sanitizeGo_fuel f rest (rest.length + 1) hrest (by omega)]
        rfl
  | cons c pfx2 ih =>
    intro fuel v rest hv hq hno hfuel
    cases fuel with
    | zero =>
      exfalso
      simp only [List.cons_append, List.length_cons] at hfuel
      omega
    | succ f =>
      have hno0 := hno 0 (by simp)
      rw [List.drop_zero] at hno0
      simp only [List.cons_append] at hno0 hfuel ⊢
      simp only [sanitizeGo]
      rw [if_neg (by rw [hno0]; simp)]
      show c :: sanitizeGo f (pfx2 ++ dataNameLit ++ v ++ '"' :: rest) =
        c :: (pfx2 ++ dataNameLit ++ (squashWs v ++ '"' :: sanitizeL rest))
      have hno2 : ∀ k, k < pfx2.length →
          startsWithL dataNameLit
            (List.drop k (pfx2 ++ dataNameLit ++ v ++ '"' :: rest)) = false := by
        intro k hk
        have := hno (k + 1) (by simp only [List.length_cons]; omega)
        rw [show List.drop (k + 1) ((c :: pfx2) ++ dataNameLit ++ v ++ '"' :: rest) =
            List.drop k (pfx2 ++ dataNameLit ++ v ++ '"' :: rest) from by
          simp [List.drop_succ_cons]] at this
        exact this
      have hflen : (pfx2 ++ dataNameLit ++ v ++ '"' :: rest).length ≤ f := by
        simp only [List.length_cons] at hfuel
        omega
      rw [ih f v rest hv hq hno2 hflen]

/-- Claim C9, confirmed.  First conjunct (general): before parsing, the
sanitizer rewrites a data-name attribute occurrence anywhere in the
input, replacing each whitespace run of its value by one underscore and
leaving everything before and after intact (the side conditions say the
occurrence is the first one and the value is a nonempty quote-free
literal, exactly the shape the regex matches).  Second conjunct
(end-to-end): the rewritten value appears in the pipeline's output on an
element the style transform never touches, so data-name values are not
preserved verbatim by the structured path. -/
theorem C9_sanitize_dataName (pfx v rest : List Char)
    (hv : v ≠ []) (hq : '"' ∉ v)
    (hno : ∀ k, k < pfx.length →
      startsWithL dataNameLit
        (List.drop k (pfx ++ dataNameLit ++ v ++ '"' :: rest)) = false) :
    sanitizeL (pfx ++ dataNameLit ++ v ++ '"' :: rest) =
      pfx ++ dataNameLit ++ (squashWs v ++ '"' :: sanitizeL rest) ∧
    convertSvgStylesToInline
      ("<svg><defs><style>.a\x7bfill:red;\x7d</style></defs><path class=\"a\"/><g data-name=\"Layer 1 copy\"/></svg>")
      false =
      some ("<svg><path style=\"fill:red;\"/><g data-name=\"Layer_1_copy\"/></svg>") := by
  constructor
  · exact sanitize_splice_aux pfx _ v rest hv hq hno (by omega)
  · decide

/-- Concrete text before the data-name occurrence, for the C9 witness. -/
def c9pfx : List Char := ("<g ").data

/-- Concrete data-name value with a whitespace run, for the C9 witness. -/
def c9val : List Char := ("A B").data

/-- Concrete text after the occurrence, for the C9 witness. -/
def c9rest : List Char := ("/>").data

theorem C9_witness :
    (c9val ≠ [] ∧ '"' ∉ c9val ∧
      (∀ k, k < c9pfx.length →
        startsWithL dataNameLit
          (List.drop k (c9pfx ++ dataNameLit ++ c9val ++ '"' :: c9rest)) = false)) ∧
    sanitizeL (c9pfx ++ dataNameLit ++ c9val ++ '"' :: c9rest) =
      c9pfx ++ dataNameLit ++ (squashWs c9val ++ '"' :: sanitizeL c9rest) :=
  ⟨⟨by decide, by decide, by decide⟩,
    (C9_sanitize_dataName c9pfx c9val c9rest (by decide) (by decide) (by decide)).1⟩

/-- Count non-overlapping occurrences of a literal, scanning left to
right and skipping past each match. -/
def countLitGo (lit : List Char) : Nat → List Char → Nat
  | 0, _ => 0
  | _ + 1, [] => 0
  | fuel + 1, c :: cs =>
    if startsWithL lit (c :: cs) then
      1 + countLitGo lit fuel (List.drop lit.length (c :: cs))
    else countLitGo lit fuel cs

def countLit (lit cs : List Char) : Nat := countLitGo lit (cs.length + 1) cs

/-- The literal style attribute opener. -/
def styleEqLit : List Char := ("style=\"").data

/-- Fallback input whose path element carries two styled classes. -/
def c8In : List Char :=
  ("<svg><defs><style>.a\x7bfill:red;\x7d.b\x7bstroke:blue;\x7d</style></defs><path class=\"a b\" d=\"M0 0\"/></svg>").data

/-- The fallback's actual output on c8In. -/
def c8Out : List Char :=
  ("<svg><path style=\"stroke:blue\" style=\"fill:red\" d=\"M0 0\"/></svg>").data

/-- Claim C8 counterexample: on an element with class a b, both styled,
the fallback's passes do not compose into a single style attribute — the
output element carries two style attributes (one per class), so the
claimed single merged style attribute (occurrence count one) is false. -/
theorem C8_counterexample :
    fallbackConvertL c8In false = c8Out ∧
    countLit styleEqLit c8Out = 2 ∧
    ¬ (countLit styleEqLit c8Out = 1) := by
  refine ⟨by decide, by decide, by decide⟩

/-- Fallback input with two style blocks. -/
def c10In : List Char :=
  ("<svg><style>.a\x7bfill:red;\x7d</style><style>.b\x7bstroke:blue;\x7d</style><path class=\"a\"/><rect class=\"b\"/></svg>").data

/-- The fallback's actual output on c10In. -/
def c10Out : List Char :=
  ("<svg><path style=\"fill:red\"/><rect class=\"b\"/></svg>").data



theorem findLitGo_splice (lit post : List Char) (hlit : lit ≠ []) :
    ∀ (pre : List Char) (fuel : Nat),
      (pre ++ (lit ++ post)).length ≤ fuel →
      (∀ k, k < pre.length →
        startsWithL lit (List.drop k (pre ++ (lit ++ post))) = false) →
      findLitGo lit fuel (pre ++ (lit ++ post)) = some (pre, post) := by
  intro pre
  induction pre with
  | nil =>
    intro fuel hfuel hno
    cases fuel with
    | zero =>
      exfalso
      rcases lit with _ | ⟨l, ls⟩
      · exact hlit rfl
      · simp at hfuel
    | succ f =>
      simp only [List.nil_append] at hfuel ⊢
      simp only [findLitGo]
      rw [if_pos (startsWithL_self_append lit post)]
      rw [List.drop_left lit post]
  | cons c pre2 ih =>
    intro fuel hfuel hno
    cases fuel with
    | zero =>
      exfalso
      simp only [List.cons_append, List.length_cons] at hfuel
      omega
    | succ f =>
      have hno0 := hno 0 (by simp)
      rw [List.drop_zero] at hno0
      simp only [List.cons_append] at hno0 hfuel ⊢
      simp only [findLitGo]
      rw [if_neg (by rw [hno0]; simp)]
      have hno2 : ∀ k, k < pre2.length →
          startsWithL lit (List.drop k (pre2 ++ (lit ++ post))) = false := by
        intro k hk
        have := hno (k + 1) (by simp only [List.length_cons]; omega)
        rw [show List.drop (k + 1) ((c :: pre2) ++ (lit ++ post)) =
            List.drop k (pre2 ++ (lit ++ post)) from by
          simp [List.drop_succ_cons]] at this
        exact this
      rw [ih f (by simp only [List.length_cons] at hfuel; omega) hno2]

theorem findLit_splice (lit pre post : List Char) (hlit : lit ≠ [])
    (hno : ∀ k, k < pre.length →
      startsWithL lit (List.drop k (pre ++ (lit ++ post))) = false) :
    findLit lit (pre ++ (lit ++ post)) = some (pre, post) :=
  findLitGo_splice lit post hlit pre ((pre ++ (lit ++ post)).length + 1) (by omega) hno

theorem findLitGo_post_le (lit : List Char) :
    ∀ (fuel : Nat) (cs pre post : List Char),
      findLitGo lit fuel cs = some (pre, post) → post.length ≤ cs.length := by
  intro fuel
  induction fuel with
  | zero =>
    intro cs pre post h
    simp [findLitGo] at h
  | succ f ih =>
    intro cs pre post h
    simp only [findLitGo] at h
    by_cases hsw : startsWithL lit cs = true
    · rw [if_pos hsw] at h
      simp only [Option.some_inj, Prod.mk.injEq] at h
      rw [← h.2]
      have := List.length_drop lit.length cs
      omega
    · rw [if_neg hsw] at h
      rcases cs with _ | ⟨c, rest⟩
      · simp at h
      · have h2 : (match findLitGo lit f rest with
            | some (pre, post) => some (c :: pre, post)
            | none => (none : Option (List Char × List Char))) = some (pre, post) := h
        rcases hfd : findLitGo lit f rest with _ | ⟨pre2, post2⟩
        · rw [hfd] at h2; simp at h2
        · rw [hfd] at h2
          simp only [Option.some_inj, Prod.mk.injEq] at h2
          have := ih rest pre2 post2 hfd
          rw [← h2.2]
          simp only [List.length_cons]
          omega

theorem findLit_post_le (lit cs pre post : List Char)
    (h : findLit lit cs = some (pre, post)) : post.length ≤ cs.length :=
  findLitGo_post_le lit (cs.length + 1) cs pre post h

theorem removeStyleBlocksGo_noOcc :
    ∀ (cs : List Char) (fuel : Nat),
      (∀ k, k < cs.length → startsWithL openStyleLit (List.drop k cs) = false) →
      removeStyleBlocksGo fuel cs = cs := by
  intro cs
  induction cs with
  | nil =>
    intro fuel _
    cases fuel with
    | zero => rfl
    | succ f =>
      simp only [removeStyleBlocksGo]
      rw [show startsWithL openStyleLit [] = false from by decide]
      simp
  | cons c cs2 ih =>
    intro fuel hno
    cases fuel with
    | zero => rfl
    | succ f =>
      have hno0 := hno 0 (by simp)
      rw [List.drop_zero] at hno0
      simp only [removeStyleBlocksGo]
      rw [if_neg (by rw [hno0]; simp)]
      have hno2 : ∀ k, k < cs2.length →
          startsWithL openStyleLit (List.drop k cs2) = false := by
        intro k hk
        have := hno (k + 1) (by simp only [List.length_cons]; omega)
        rw [List.drop_succ_cons] at this
        exact this
      rw [ih f hno2]

theorem removeStyleBlocksGo_fuel :
    ∀ (fuel1 : Nat) (cs : List Char) (fuel2 : Nat),
      cs.length ≤ fuel1 → cs.length ≤ fuel2 →
      removeStyleBlocksGo fuel1 cs = removeStyleBlocksGo fuel2 cs := by
  intro fuel1
  induction fuel1 with
  | zero =>
    intro cs fuel2 h1 _
    have hnil : cs = [] := by
      cases cs with
      | nil => rfl
      | cons c cs => simp at h1
    subst hnil
    cases fuel2 with
    | zero => rfl
    | succ n =>
      show removeStyleBlocksGo 0 [] = removeStyleBlocksGo (n + 1) []
      simp only [removeStyleBlocksGo]
      rw [show startsWithL openStyleLit [] = false from by decide]
      simp
  | succ n1 ih =>
    intro cs fuel2 h1 h2
    cases cs with
    | nil =>
      cases fuel2 with
      | zero =>
        show removeStyleBlocksGo (n1 + 1) [] = removeStyleBlocksGo 0 []
        simp only [removeStyleBlocksGo]
        rw [show startsWithL openStyleLit [] = false from by decide]
        simp
      | succ n2 =>
        simp only [removeStyleBlocksGo]
        rw [show startsWithL openStyleLit [] = false from by decide]
        simp
    | cons c cs2 =>
      cases fuel2 with
      | zero => simp at h2
      | succ n2 =>
        have hlen : cs2.length ≤ n1 := by simpa using h1
        have hlen2 : cs2.length ≤ n2 := by simpa using h2
        have ihc := ih cs2 n2 hlen hlen2
        simp only [removeStyleBlocksGo]
        by_cases hsw : startsWithL openStyleLit (c :: cs2) = true
        · rw [if_pos hsw, if_pos hsw]
          rcases hfd : findLit closeStyleLit
              (List.drop openStyleLit.length (c :: cs2)) with _ | ⟨pre2, after⟩
          · show c :: removeStyleBlocksGo n1 cs2 = c :: removeStyleBlocksGo n2 cs2
            rw [ihc]
          · have hle := findLit_post_le closeStyleLit _ pre2 after hfd
            have h7 : openStyleLit.length = 7 := by decide
            rw [List.length_drop, h7] at hle
            simp only [List.length_cons] at hle
            show removeStyleBlocksGo n1 after = removeStyleBlocksGo n2 after
            exact ih after n2 (by omega) (by omega)
        · rw [if_neg hsw, if_neg hsw]
          show c :: removeStyleBlocksGo n1 cs2 = c :: removeStyleBlocksGo n2 cs2
          rw [ihc]

theorem removeStyleBlocks_splice_aux :
    ∀ (pre : List Char) (fuel : Nat) (s X : List Char),
      (∀ k, k < pre.length →
        startsWithL openStyleLit
          (List.drop k (pre ++ (openStyleLit ++ (s ++ (closeStyleLit ++ X))))) = false) →
      findLit closeStyleLit (s ++ (closeStyleLit ++ X)) = some (s, X) →
      (pre ++ (openStyleLit ++ (s ++ (closeStyleLit ++ X)))).length ≤ fuel →
      removeStyleBlocksGo fuel (pre ++ (openStyleLit ++ (s ++ (closeStyleLit ++ X)))) =
        pre ++ removeStyleBlocksL X := by
  intro pre
  induction pre with
  | nil =>
    intro fuel s X hno hclose hfuel
    have h7 : openStyleLit.length = 7 := by decide
    have h8 : closeStyleLit.length = 8 := by decide
    cases fuel with
    | zero =>
      exfalso
      simp only [List.nil_append, List.length_append, h7, h8] at hfuel
      omega
    | succ f =>
      simp only [List.nil_append] at hfuel ⊢
      simp only [removeStyleBlocksGo]
      rw [if_pos (startsWithL_self_append openStyleLit (s ++ (closeStyleLit ++ X)))]
      rw [List.drop_left openStyleLit (s ++ (closeStyleLit ++ X))]
      rw [hclose]
      show removeStyleBlocksGo f X = removeStyleBlocksL X
      have hX : X.length ≤ f := by
        simp only [List.length_append, h7, h8] at hfuel
        omega
      exact removeStyleBlocksGo_fuel f X (X.length + 1) hX (by omega)
  | cons c pre2 ih =>
    intro fuel s X hno hclose hfuel
    cases fuel with
    | zero =>
      exfalso
      simp only [List.cons_append, List.length_cons] at hfuel
      omega
    | succ f =>
      have hno0 := hno 0 (by simp)
      rw [List.drop_zero] at hno0
      simp only [List.cons_append] at hno0 hfuel ⊢
      simp only [removeStyleBlocksGo]
      rw [if_neg (by rw [hno0]; simp)]
      show c :: removeStyleBlocksGo f (pre2 ++ (openStyleLit ++ (s ++ (closeStyleLit ++ X)))) =
        c :: (pre2 ++ removeStyleBlocksL X)
      have hno2 : ∀ k, k < pre2.length →
          startsWithL openStyleLit
            (List.drop k (pre2 ++ (openStyleLit ++ (s ++ (closeStyleLit ++ X))))) = false := by
        intro k hk
        have := hno (k + 1) (by simp only [List.length_cons]; omega)
        rw [show List.drop (k + 1) ((c :: pre2) ++ (openStyleLit ++ (s ++ (closeStyleLit ++ X)))) =
            List.drop k (pre2 ++ (openStyleLit ++ (s ++ (closeStyleLit ++ X)))) from by
          simp [List.drop_succ_cons]] at this
        exact this
      rw [ih f s X hno2 hclose (by simp only [List.length_cons] at hfuel; omega)]

theorem removeStyleBlocks_splice (pre s X : List Char)
    (hno : ∀ k, k < pre.length →
      startsWithL openStyleLit
        (List.drop k (pre ++ (openStyleLit ++ (s ++ (closeStyleLit ++ X))))) = false)
    (hclose : findLit closeStyleLit (s ++ (closeStyleLit ++ X)) = some (s, X)) :
    removeStyleBlocksL (pre ++ (openStyleLit ++ (s ++ (closeStyleLit ++ X)))) =
      pre ++ removeStyleBlocksL X :=
  removeStyleBlocks_splice_aux pre _ s X hno hclose (by omega)

/-- The spliced two-block input shape used in claim C10: text before the
first block, the first block, text between blocks, the second block,
trailing text. -/
def twoBlockInput (pre s1 mid s2 post : List Char) : List Char :=
  pre ++ (openStyleLit ++ (s1 ++ (closeStyleLit ++
    (mid ++ (openStyleLit ++ (s2 ++ (closeStyleLit ++ post)))))))

/-- Claim C10, confirmed.  General conjuncts: on any input text of the
shape pre <style>s1</style> mid <style>s2</style> post (the side
conditions state that pre and mid contain no earlier opening style tag,
that each block's own closing tag is the first one after its opener, and
that post contains no style block), the fallback's single regex exec
extracts exactly the first block's trimmed text — the second block's
rules are never derived — while the cleanup pass deletes both blocks,
leaving pre mid post.  Concrete conjuncts: an end-to-end two-block run
in which the second block's rule is silently discarded (the rect keeps
class="b" and no stroke declaration appears) and no style tag survives. -/
theorem C10_first_block_only (pre s1 mid s2 post : List Char)
    (hpre : ∀ k, k < pre.length →
      startsWithL openStyleLit
        (List.drop k (twoBlockInput pre s1 mid s2 post)) = false)
    (hclose1 : findLit closeStyleLit
      (s1 ++ (closeStyleLit ++ (mid ++ (openStyleLit ++ (s2 ++ (closeStyleLit ++ post)))))) =
      some (s1, mid ++ (openStyleLit ++ (s2 ++ (closeStyleLit ++ post)))))
    (hmid : ∀ k, k < mid.length →
      startsWithL openStyleLit
        (List.drop k (mid ++ (openStyleLit ++ (s2 ++ (closeStyleLit ++ post))))) = false)
    (hclose2 : findLit closeStyleLit (s2 ++ (closeStyleLit ++ post)) = some (s2, post))
    (hpost : ∀ k, k < post.length →
      startsWithL openStyleLit (List.drop k post) = false) :
    extractFirstStyleL (twoBlockInput pre s1 mid s2 post) = some (trimL s1) ∧
    removeStyleBlocksL (twoBlockInput pre s1 mid s2 post) = pre ++ (mid ++ post) ∧
    fallbackConvertL c10In false = c10Out ∧
    countLit openStyleLit c10In = 2 ∧
    countLit openStyleLit c10Out = 0 ∧
    countLit (("stroke").data) c10Out = 0 ∧
    countLit (("class=\"b\"").data) c10Out = 1 := by
  have hshape : twoBlockInput pre s1 mid s2 post =
      pre ++ (openStyleLit ++
        (s1 ++ (closeStyleLit ++ (mid ++ (openStyleLit ++ (s2 ++ (closeStyleLit ++ post))))))) :=
    rfl
  have hfind : findLit openStyleLit (twoBlockInput pre s1 mid s2 post) =
      some (pre, s1 ++ (closeStyleLit ++ (mid ++ (openStyleLit ++ (s2 ++ (closeStyleLit ++ post)))))) := by
    rw [hshape]
    exact findLit_splice openStyleLit pre _ (by decide) (by rw [← hshape]; exact hpre)
  refine ⟨?_, ?_, by decide, by decide, by decide, by decide, by decide⟩
  · unfold extractFirstStyleL
    rw [hfind]
    simp only [hclose1]
  · rw [hshape]
    rw [removeStyleBlocks_splice pre s1 _ (by rw [← hshape]; exact hpre) hclose1]
    rw [removeStyleBlocks_splice mid s2 post hmid hclose2]
    rw [show removeStyleBlocksL post = post from
      removeStyleBlocksGo_noOcc post (post.length + 1) hpost]

/-- Concrete splice parts for the C10 witness: c10In decomposes as
pre <style>s1</style> <style>s2</style> post with empty mid. -/
def c10pre : List Char := ("<svg>").data

/-- First block body of the C10 witness. -/
def c10s1 : List Char := (".a\x7bfill:red;\x7d").data

/-- Second block body of the C10 witness. -/
def c10s2 : List Char := (".b\x7bstroke:blue;\x7d").data

/-- Trailing text of the C10 witness. -/
def c10post : List Char := ("<path class=\"a\"/><rect class=\"b\"/></svg>").data

theorem C10_witness :
    ((∀ k, k < c10pre.length →
        startsWithL openStyleLit
          (List.drop k (twoBlockInput c10pre c10s1 [] c10s2 c10post)) = false) ∧
      findLit closeStyleLit
        (c10s1 ++ (closeStyleLit ++ ([] ++ (openStyleLit ++ (c10s2 ++ (closeStyleLit ++ c10post)))))) =
        some (c10s1, [] ++ (openStyleLit ++ (c10s2 ++ (closeStyleLit ++ c10post)))) ∧
      findLit closeStyleLit (c10s2 ++ (closeStyleLit ++ c10post)) = some (c10s2, c10post) ∧
      (∀ k, k < c10post.length →
        startsWithL openStyleLit (List.drop k c10post) = false)) ∧
    (extractFirstStyleL (twoBlockInput c10pre c10s1 [] c10s2 c10post) = some (trimL c10s1) ∧
      removeStyleBlocksL (twoBlockInput c10pre c10s1 [] c10s2 c10post) = c10pre ++ ([] ++ c10post)) :=
  ⟨⟨by decide, by decide, by decide, by decide⟩,
    by
      have h := C10_first_block_only c10pre c10s1 [] c10s2 c10post
        (by decide) (by decide) (by simp) (by decide) (by decide)
      exact ⟨h.1, h.2.1⟩⟩

theorem applyClassTextualGo_fuel (cls inline : List Char) :
    ∀ (fuel1 : Nat) (cs : List Char) (fuel2 : Nat),
      cs.length ≤ fuel1 → cs.length ≤ fuel2 →
      applyClassTextualGo cls inline fuel1 cs = applyClassTextualGo cls inline fuel2 cs := by
  intro fuel1
  induction fuel1 with
  | zero =>
    intro cs fuel2 h1 _
    have hnil : cs = [] := by
      cases cs with
      | nil => rfl
      | cons c cs => simp at h1
    subst hnil
    cases fuel2 with
    | zero => rfl
    | succ n =>
      show applyClassTextualGo cls inline 0 [] = applyClassTextualGo cls inline (n + 1) []
      simp only [applyClassTextualGo]
      rw [show startsWithL classAttrLit [] = false from by decide]
      simp
  | succ n1 ih =>
    intro cs fuel2 h1 h2
    cases cs with
    | nil =>
      cases fuel2 with
      | zero =>
        show applyClassTextualGo cls inline (n1 + 1) [] = applyClassTextualGo cls inline 0 []
        simp only [applyClassTextualGo]
        rw [show startsWithL classAttrLit [] = false from by decide]
        simp
      | succ n2 =>
        simp only [applyClassTextualGo]
        rw [show startsWithL classAttrLit [] = false from by decide]
        simp
    | cons c cs2 =>
      cases fuel2 with
      | zero => simp at h2
      | succ n2 =>
        have hlen : cs2.length ≤ n1 := by simpa using h1
        have hlen2 : cs2.length ≤ n2 := by simpa using h2
        have ihc := ih cs2 n2 hlen hlen2
        simp only [applyClassTextualGo]
        by_cases hsw : startsWithL classAttrLit (c :: cs2) = true
        · rw [if_pos hsw, if_pos hsw]
          rcases htk : (List.drop classAttrLit.length (c :: cs2)).takeWhile
              (fun ch => ch ≠ '"') with _ | ⟨v0, vt⟩ <;>
            rcases hdw : (List.drop classAttrLit.length (c :: cs2)).dropWhile
              (fun ch => ch ≠ '"') with _ | ⟨y, ys⟩
          · show c :: applyClassTextualGo cls inline n1 cs2 =
              c :: applyClassTextualGo cls inline n2 cs2
            rw [ihc]
          · have hy := dropWhile_quote_head _ y ys hdw
            subst hy
            have hys : ys.length ≤ cs2.length := by
              have hsub := length_dropWhile_le_own (fun ch => decide (ch ≠ '"'))
                (List.drop classAttrLit.length (c :: cs2))
              rw [hdw] at hsub
              have h7 : classAttrLit.length = 7 := by decide
              rw [List.length_drop, h7] at hsub
              simp only [List.length_cons] at hsub
              omega
            show (if hasBoundedOcc cls [] = true then
                classReplacement cls inline [] ++ applyClassTextualGo cls inline n1 ys
              else c :: applyClassTextualGo cls inline n1 cs2) =
              (if hasBoundedOcc cls [] = true then
                classReplacement cls inline [] ++ applyClassTextualGo cls inline n2 ys
              else c :: applyClassTextualGo cls inline n2 cs2)
            by_cases hb : hasBoundedOcc cls [] = true
            · rw [if_pos hb, if_pos hb, ih ys n2 (by omega) (by omega)]
            · rw [if_neg hb, if_neg hb, ihc]
          · show c :: applyClassTextualGo cls inline n1 cs2 =
              c :: applyClassTextualGo cls inline n2 cs2
            rw [ihc]
          · have hy := dropWhile_quote_head _ y ys hdw
            subst hy
            have hys : ys.length ≤ cs2.length := by
              have hsub := length_dropWhile_le_own (fun ch => decide (ch ≠ '"'))
                (List.drop classAttrLit.length (c :: cs2))
              rw [hdw] at hsub
              have h7 : classAttrLit.length = 7 := by decide
              rw [List.length_drop, h7] at hsub
              simp only [List.length_cons] at hsub
              omega
            show (if hasBoundedOcc cls (v0 :: vt) = true then
                classReplacement cls inline (v0 :: vt) ++ applyClassTextualGo cls inline n1 ys
              else c :: applyClassTextualGo cls inline n1 cs2) =
              (if hasBoundedOcc cls (v0 :: vt) = true then
                classReplacement cls inline (v0 :: vt) ++ applyClassTextualGo cls inline n2 ys
              else c :: applyClassTextualGo cls inline n2 cs2)
            by_cases hb : hasBoundedOcc cls (v0 :: vt) = true
            · rw [if_pos hb, if_pos hb, ih ys n2 (by omega) (by omega)]
            · rw [if_neg hb, if_neg hb, ihc]
        · rw [if_neg hsw, if_neg hsw]
          show c :: applyClassTextualGo cls inline n1 cs2 =
            c :: applyClassTextualGo cls inline n2 cs2
          rw [ihc]

theorem applyClassTextual_splice_aux (cls inline : List Char) :
    ∀ (pre : List Char) (fuel : Nat) (v rest : List Char),
      (∀ k, k < pre.length →
        startsWithL classAttrLit
          (List.drop k (pre ++ (classAttrLit ++ (v ++ '"' :: rest)))) = false) →
      '"' ∉ v →
      hasBoundedOcc cls v = true →
      (pre ++ (classAttrLit ++ (v ++ '"' :: rest))).length ≤ fuel →
      applyClassTextualGo cls inline fuel (pre ++ (classAttrLit ++ (v ++ '"' :: rest))) =
        pre ++ (classReplacement cls inline v ++ applyClassTextual cls inline rest) := by
  intro pre
  induction pre with
  | nil =>
    intro fuel v rest hno hq hb hfuel
    have h7 : classAttrLit.length = 7 := by decide
    cases fuel with
    | zero =>
      exfalso
      simp only [List.nil_append, List.length_append, h7] at hfuel
      omega
    | succ f =>
      simp only [List.nil_append] at hfuel ⊢
      simp only [applyClassTextualGo]
      rw [if_pos (startsWithL_self_append classAttrLit (v ++ '"' :: rest))]
      rw [List.drop_left classAttrLit (v ++ '"' :: rest)]
      have hv : ∀ c ∈ v, (fun ch => decide (ch ≠ '"')) c = true := by
        intro c hc
        simp only [decide_eq_true_eq]
        intro h
        exact hq (h ▸ hc)
      have htk := takeWhile_until (fun ch => decide (ch ≠ '"')) v '"' rest hv (by decide)
      rw [htk.1, htk.2]
      simp only [hb, eq_self_iff_true, if_true]
      have hrest : rest.length ≤ f := by
        simp only [List.length_append, List.length_cons, h7] at hfuel
        omega
      rw [applyClassTextualGo_fuel cls inline f rest (rest.length + 1) hrest (by omega)]
      rfl
  | cons c pre2 ih =>
    intro fuel v rest hno hq hb hfuel
    cases fuel with
    | zero =>
      exfalso
      simp only [List.cons_append, List.length_cons] at hfuel
      omega
    | succ f =>
      have hno0 := hno 0 (by simp)
      rw [List.drop_zero] at hno0
      simp only [List.cons_append] at hno0 hfuel ⊢
      simp only [applyClassTextualGo]
      rw [if_neg (by rw [hno0]; simp)]
      show c :: applyClassTextualGo cls inline f (pre2 ++ (classAttrLit ++ (v ++ '"' :: rest))) =
        c :: (pre2 ++ (classReplacement cls inline v ++ applyClassTextual cls inline rest))
      have hno2 : ∀ k, k < pre2.length →
          startsWithL classAttrLit
            (List.drop k (pre2 ++ (classAttrLit ++ (v ++ '"' :: rest)))) = false := by
        intro k hk
        have := hno (k + 1) (by simp only [List.length_cons]; omega)
        rw [show List.drop (k + 1) ((c :: pre2) ++ (classAttrLit ++ (v ++ '"' :: rest))) =
            List.drop k (pre2 ++ (classAttrLit ++ (v ++ '"' :: rest))) from by
          simp [List.drop_succ_cons]] at this
        exact this
      rw [ih f v rest hno2 hq hb (by simp only [List.length_cons] at hfuel; omega)]

theorem applyClassTextual_splice (cls inline pre v rest : List Char)
    (hno : ∀ k, k < pre.length →
      startsWithL classAttrLit
        (List.drop k (pre ++ (classAttrLit ++ (v ++ '"' :: rest)))) = false)
    (hq : '"' ∉ v) (hb : hasBoundedOcc cls v = true) :
    applyClassTextual cls inline (pre ++ (classAttrLit ++ (v ++ '"' :: rest))) =
      pre ++ (classReplacement cls inline v ++ applyClassTextual cls inline rest) :=
  applyClassTextual_splice_aux cls inline pre _ v rest hno hq hb (by omega)

/-- Concrete instantiation pieces for the C8 witness. -/
def c8pre : List Char := ("<path ").data

def c8cls : List Char := ("b").data

def c8inline : List Char := ("stroke:blue").data

def c8v : List Char := ("b").data

def c8rest : List Char := (" style=\"fill:red\"/>").data

/-- Claim C8, corrected.  The fallback's per-class passes do not compose:
in general, one pass over pre ++ class="v" ++ rest whose value v has a
word-bounded occurrence of the class (and no earlier attribute opener in
pre) rewrites exactly that attribute to the pass's own replacement and
recurses on rest, leaving everything already emitted in pre — including
any style attribute written by an earlier pass — untouched.  So on an
element with class a b, both styled, the first pass emits class="b"
style="fill:red", the second replaces the remaining class="b" with
style="stroke:blue", and the element ends with one separate style
attribute per styled class (two here, in reverse order of processing),
not one style attribute holding all declarations; its class attribute
is gone. -/
theorem C8_amended (cls inline pre v rest : List Char)
    (hno : ∀ k, k < pre.length →
      startsWithL classAttrLit
        (List.drop k (pre ++ (classAttrLit ++ (v ++ '"' :: rest)))) = false)
    (hq : '"' ∉ v) (hb : hasBoundedOcc cls v = true) :
    (applyClassTextual cls inline (pre ++ (classAttrLit ++ (v ++ '"' :: rest))) =
      pre ++ (classReplacement cls inline v ++ applyClassTextual cls inline rest)) ∧
    fallbackConvertL c8In false = c8Out ∧
    countLit styleEqLit c8Out = 2 ∧
    countLit classAttrLit c8Out = 0 ∧
    applyClassTextual (("b").data) (("stroke:blue").data)
      (("<path class=\"b\" style=\"fill:red\"/>").data) =
      ("<path style=\"stroke:blue\" style=\"fill:red\"/>").data := by
  refine ⟨applyClassTextual_splice cls inline pre v rest hno hq hb,
    by decide, by decide, by decide, by decide⟩

/-- Witness for C8_amended: the second pass (class b, inline
stroke:blue) applied to the first pass's output around the remaining
class="b" attribute splices in the replacement and leaves the earlier
style="fill:red" of the tail untouched. -/
theorem C8_witness :
    (applyClassTextual c8cls c8inline (c8pre ++ (classAttrLit ++ (c8v ++ '"' :: c8rest))) =
      c8pre ++ (classReplacement c8cls c8inline c8v ++ applyClassTextual c8cls c8inline c8rest)) ∧
    fallbackConvertL c8In false = c8Out ∧
    countLit styleEqLit c8Out = 2 ∧
    countLit classAttrLit c8Out = 0 ∧
    applyClassTextual (("b").data) (("stroke:blue").data)
      (("<path class=\"b\" style=\"fill:red\"/>").data) =
      ("<path style=\"stroke:blue\" style=\"fill:red\"/>").data :=
  C8_amended c8cls c8inline c8pre c8v c8rest (by decide) (by decide) (by decide)
